import Mathlib

/-!
Verification development for the AteBit backend (legal-document analysis
service). Each Python function named in the claims is shallowly embedded as
an executable Lean definition over `List Char` (text) and `List Nat` (bytes);
external collaborators (the generative model, the JSON parser, the per-format
extraction libraries, `mimetypes.guess_type`, Unicode printability tables)
are passed in as explicit function parameters, so every theorem quantifies
over their behaviour.
-/

/-! ## Text cleaning (`apps/documents/services/text_extractor.py`,
    `TextExtractor._clean_text`, lines 347-377) -/

/-- Python `str` whitespace, as used by `str.strip()` / `str.isspace()`:
ASCII whitespace, the C1 separators, and the Unicode space characters. -/
def pws (c : Char) : Bool :=
  c.toNat = 0x20 ∨ c.toNat = 0x09 ∨ c.toNat = 0x0a ∨ c.toNat = 0x0b ∨
  c.toNat = 0x0c ∨ c.toNat = 0x0d ∨ (0x1c ≤ c.toNat ∧ c.toNat ≤ 0x1f) ∨
  c.toNat = 0x85 ∨ c.toNat = 0xa0 ∨ c.toNat = 0x1680 ∨
  (0x2000 ≤ c.toNat ∧ c.toNat ≤ 0x200a) ∨ c.toNat = 0x2028 ∨
  c.toNat = 0x2029 ∨ c.toNat = 0x202f ∨ c.toNat = 0x205f ∨ c.toNat = 0x3000

/-- The character class `[ \t]` of the horizontal-whitespace regex. -/
def sptab (c : Char) : Bool := c = ' ' ∨ c = '\t'

/-- `text.replace('\r\n', '\n')`: leftmost, non-overlapping replacement. -/
def replaceCRLF : List Char → List Char
  | '\r' :: '\n' :: rest => '\n' :: replaceCRLF rest
  | c :: rest => c :: replaceCRLF rest
  | [] => []

/-- `text.replace('\r', '\n')`. -/
def replaceCR (l : List Char) : List Char :=
  l.map fun c => if c = '\r' then '\n' else c

/-- `re.sub(r'[ \t]+', ' ', text)`: each maximal run of spaces/tabs becomes
one single space. -/
def collapseSpaces : List Char → List Char
  | [] => []
  | [c] => if sptab c then [' '] else [c]
  | c₁ :: c₂ :: rest =>
    if sptab c₁ && sptab c₂ then collapseSpaces (c₂ :: rest)
    else (if sptab c₁ then ' ' else c₁) :: collapseSpaces (c₂ :: rest)

/-- Helper for the newline-run regex: `pending` counts the newlines of the
current run; when the run ends it is emitted as `min pending 2` newlines. -/
def collapseNlAux : Nat → List Char → List Char
  | pending, [] => List.replicate (min pending 2) '\n'
  | pending, c :: rest =>
    if c = '\n' then collapseNlAux (pending + 1) rest
    else List.replicate (min pending 2) '\n' ++ c :: collapseNlAux 0 rest

/-- `re.sub(r'\n{3,}', '\n\n', text)`: each maximal run of `k ≥ 3` newlines
becomes exactly two newlines; shorter runs are left alone, so every maximal
run of `k` newlines becomes `min k 2` newlines. -/
def collapseNewlines (l : List Char) : List Char := collapseNlAux 0 l

/-- `text.split('\n')` (Python semantics: `''.split('\n') = ['']`). -/
def splitOnNl : List Char → List (List Char)
  | [] => [[]]
  | c :: rest =>
    if c = '\n' then [] :: splitOnNl rest
    else
      match splitOnNl rest with
      | [] => [[c]]
      | l :: ls => (c :: l) :: ls

/-- `'\n'.join(lines)`. -/
def joinNl : List (List Char) → List Char
  | [] => []
  | [l] => l
  | l :: ls => l ++ '\n' :: joinNl ls

/-- `str.lstrip()` (no argument): drop leading Python whitespace. -/
def lstrip (l : List Char) : List Char := l.dropWhile pws

/-- `str.rstrip()` (no argument): drop trailing Python whitespace. -/
def rstrip : List Char → List Char
  | [] => []
  | c :: rest =>
    match rstrip rest with
    | [] => if pws c then [] else [c]
    | r => c :: r

/-- `str.strip()` (no argument): drop Python whitespace at both ends. -/
def pyStrip (l : List Char) : List Char := rstrip (lstrip l)

/-- `'\n'.join(line.strip() for line in text.split('\n'))`
(lines 371-372 of `text_extractor.py`). -/
def stripLines (l : List Char) : List Char :=
  joinNl ((splitOnNl l).map pyStrip)

/-- `TextExtractor._clean_text` (lines 347-377): the empty-input guard, then
CR/LF normalisation, horizontal-whitespace collapsing, newline-run
collapsing, per-line trimming, and overall trimming, in source order. -/
def cleanText (l : List Char) : List Char :=
  if l = [] then []
  else pyStrip (stripLines (collapseNewlines (collapseSpaces (replaceCR (replaceCRLF l)))))

/-- Scanner for two adjacent space characters. -/
def hasDoubleSpace : List Char → Bool
  | a :: b :: rest => (a = ' ' && b = ' ') || hasDoubleSpace (b :: rest)
  | _ => false

/-- Scanner for three consecutive newline characters. -/
def hasTripleNl : List Char → Bool
  | a :: b :: c :: rest =>
    (a = '\n' && b = '\n' && c = '\n') || hasTripleNl (b :: c :: rest)
  | _ => false

/-! ## Format detection and text extraction
    (`apps/documents/services/text_extractor.py`, `TextExtractor`).
    The per-format extraction libraries (PyPDF2, python-docx, chardet) and
    `mimetypes.guess_type` are external collaborators and appear as function
    parameters; bytes are modelled as `Nat` values `< 256`. -/

/-- Start of a multi-byte UTF-8 sequence: for a lead byte `b`, the
accumulated high bits, the number of continuation bytes still expected, and
the allowed range of the next byte (the `E0`/`ED`/`F0`/`F4` special ranges
exclude overlong encodings, surrogates and values above `U+10FFFF`). -/
def u8Start (b : Nat) : Option (Nat × Nat × Nat × Nat) :=
  if 0xC2 ≤ b && b ≤ 0xDF then some (b - 0xC0, 1, 0x80, 0xBF)
  else if b = 0xE0 then some (0, 2, 0xA0, 0xBF)
  else if b = 0xED then some (0xD, 2, 0x80, 0x9F)
  else if 0xE0 ≤ b && b ≤ 0xEF then some (b - 0xE0, 2, 0x80, 0xBF)
  else if b = 0xF0 then some (0, 3, 0x90, 0xBF)
  else if b = 0xF4 then some (4, 3, 0x80, 0x8F)
  else if 0xF0 ≤ b && b ≤ 0xF4 then some (b - 0xF0, 3, 0x80, 0xBF)
  else none

/-- Decoder loop for `bytes.decode('utf-8', errors='ignore')`: the state is
the pending multi-byte sequence, if any. An invalid byte drops the pending
sequence and is rescanned as a fresh byte; since stray continuation bytes
never produce output, the decoded text equals CPython's maximal-subpart
skipping. -/
def u8IgnoreAux : Option (Nat × Nat × Nat × Nat) → List Nat → List Char
  | _, [] => []
  | none, b :: rest =>
    if b < 0x80 then Char.ofNat b :: u8IgnoreAux none rest
    else
      match u8Start b with
      | some st => u8IgnoreAux (some st) rest
      | none => u8IgnoreAux none rest
  | some (acc, need, lo, hi), b :: rest =>
    if lo ≤ b && b ≤ hi then
      if need = 1 then Char.ofNat (acc * 0x40 + (b - 0x80)) :: u8IgnoreAux none rest
      else u8IgnoreAux (some (acc * 0x40 + (b - 0x80), need - 1, 0x80, 0xBF)) rest
    else if b < 0x80 then Char.ofNat b :: u8IgnoreAux none rest
    else
      match u8Start b with
      | some st => u8IgnoreAux (some st) rest
      | none => u8IgnoreAux none rest

/-- `bytes.decode('utf-8', errors='ignore')`. -/
def utf8Ignore (bs : List Nat) : List Char := u8IgnoreAux none bs

/-- Decoder loop for strict `bytes.decode('utf-8')`; any invalid or
truncated sequence fails the whole decode. -/
def u8StrictAux : Option (Nat × Nat × Nat × Nat) → List Nat → Option (List Char)
  | none, [] => some []
  | some _, [] => none
  | none, b :: rest =>
    if b < 0x80 then (u8StrictAux none rest).map (Char.ofNat b :: ·)
    else
      match u8Start b with
      | some st => u8StrictAux (some st) rest
      | none => none
  | some (acc, need, lo, hi), b :: rest =>
    if lo ≤ b && b ≤ hi then
      if need = 1 then
        (u8StrictAux none rest).map (Char.ofNat (acc * 0x40 + (b - 0x80)) :: ·)
      else u8StrictAux (some (acc * 0x40 + (b - 0x80), need - 1, 0x80, 0xBF)) rest
    else none

/-- `bytes.decode('utf-8')` (strict): `none` models a raised
`UnicodeDecodeError`. -/
def utf8Strict (bs : List Nat) : Option (List Char) := u8StrictAux none bs

/-- `data.startswith(pattern)` for byte strings. -/
def startsWithBytes : List Nat → List Nat → Bool
  | [], _ => true
  | _ :: _, [] => false
  | p :: ps, b :: bs => p = b && startsWithBytes ps bs

/-- Leading-match test for character strings. -/
def startsWithChars : List Char → List Char → Bool
  | [], _ => true
  | _ :: _, [] => false
  | p :: ps, c :: cs => p = c && startsWithChars ps cs

/-- Python's `needle in hay` substring test. -/
def hasSubSeq (needle : List Char) : List Char → Bool
  | [] => startsWithChars needle []
  | c :: rest => startsWithChars needle (c :: rest) || hasSubSeq needle rest

/-- The inner marker naming word-processing content (`'wordprocessingml'`). -/
def wordprocessingMarker : List Char := "wordprocessingml".data

/-- `b'%PDF'`. -/
def pdfSignature : List Nat := [0x25, 0x50, 0x44, 0x46]

/-- `b'PK\x03\x04'`. -/
def zipSignature : List Nat := [0x50, 0x4B, 0x03, 0x04]

/-- `b'\x89PNG'`. -/
def pngSignature : List Nat := [0x89, 0x50, 0x4E, 0x47]

/-- `b'\xff\xd8\xff'`. -/
def jpegSignature : List Nat := [0xFF, 0xD8, 0xFF]

/-- `b'GIF8'`. -/
def gifSignature : List Nat := [0x47, 0x49, 0x46, 0x38]

/-- `TextExtractor.SUPPORTED_MIME_TYPES` (lines 48-53). -/
def supportedMimeTypes : List (String × String) :=
  [("application/pdf", "pdf"),
   ("application/vnd.openxmlformats-officedocument.wordprocessingml.document", "docx"),
   ("text/plain", "txt"),
   ("text/csv", "txt")]

/-- `TextExtractor._detect_by_signature` (lines 435-485). `printable` is
Python's Unicode `str.isprintable`, an external table passed as a parameter;
the final branch is the printable-character heuristic
`printable_ratio > 0.8` written over naturals. -/
def detectBySignature (printable : Char → Bool) (content : List Nat) : Option String :=
  if content.length < 4 then none
  else if startsWithBytes pdfSignature content then some "application/pdf"
  else if startsWithBytes zipSignature content then
    if hasSubSeq wordprocessingMarker (utf8Ignore (content.take 1024)) then
      some "application/vnd.openxmlformats-officedocument.wordprocessingml.document"
    else some "application/zip"
  else if startsWithBytes pngSignature content then some "image/png"
  else if startsWithBytes jpegSignature content then some "image/jpeg"
  else if startsWithBytes gifSignature content then some "image/gif"
  else
    match utf8Strict (content.take 1024) with
    | some decoded =>
      if 4 * decoded.length < 5 * (decoded.filter (fun c => printable c || pws c)).length
      then some "text/plain" else none
    | none => none

/-- `TextExtractor._detect_mime_type` (lines 404-433) on the
signature-detection path (`use_magic = False`); `guessType` is the
`mimetypes.guess_type` collaborator. -/
def detectMimeType (printable : Char → Bool) (guessType : String → Option String)
    (content : List Nat) (filename : Option String) : String :=
  match detectBySignature printable content with
  | some m => m
  | none =>
    match filename with
    | some f =>
      match guessType f with
      | some m => if supportedMimeTypes.any (fun p => p.1 = m) then m else "text/plain"
      | none => "text/plain"
    | none => "text/plain"

/-- Error taxonomy of `extract_text` (`TextExtractionError` /
`UnsupportedFileFormatError`, distinguished by failure cause). -/
inductive ExtractError where
  | inputTooLarge
  | emptyInput
  | unsupportedFormat (mime : String)
  | extractionFailed (msg : String)
deriving DecidableEq

/-- Result dictionary of `extract_text` (lines 124-131); the per-format
`metadata` entry is produced by the extraction collaborators and is not
modelled. -/
structure ExtractResult where
  text : List Char
  fileType : String
  encoding : Option String
  originalLength : Nat
  cleanedLength : Nat
deriving DecidableEq

/-- `TextExtractor.MAX_FILE_SIZE` (line 55). -/
def MAX_FILE_SIZE : Nat := 10 * 1024 * 1024

/-- `TextExtractor.extract_text` (lines 70-140): size ceiling, empty-input
guard, MIME detection, supported-type gate, dispatch to the per-format
extraction strategy (`pdfX`/`docxX`/`txtX`, the library-backed extractors,
passed as parameters), then the cleaning pass. -/
def extractText (printable : Char → Bool) (guessType : String → Option String)
    (pdfX docxX : List Nat → Except String (List Char))
    (txtX : List Nat → Except String (List Char × String))
    (content : List Nat) (filename : Option String) :
    Except ExtractError ExtractResult :=
  if MAX_FILE_SIZE < content.length then .error .inputTooLarge
  else if content = [] then .error .emptyInput
  else
    let mime := detectMimeType printable guessType content filename
    match supportedMimeTypes.lookup mime with
    | none => .error (.unsupportedFormat mime)
    | some ft =>
      let run : Except String (List Char × Option String) :=
        if ft = "pdf" then (pdfX content).map (fun t => (t, none))
        else if ft = "docx" then (docxX content).map (fun t => (t, none))
        else (txtX content).map (fun p => (p.1, some p.2))
      match run with
      | .error msg => .error (.extractionFailed msg)
      | .ok (text, enc) =>
        let cleaned := cleanText text
        .ok ⟨cleaned, mime, enc, text.length, cleaned.length⟩

/-! ## AI invocation (`apps/ai_services/vertex_client.py`, `VertexAIClient`).
    The generative model is the collaborator `service`, giving the outcome of
    each numbered attempt for a prompt (`.error` models a raised exception
    from the model call, `.ok` the `response.text`); `json.loads` success is
    the collaborator `parse`. The system-prompt texts are opaque natural
    language and are carried as the `Prompts` parameter. -/

/-- Propositional equality on `Except` outcomes is decidable componentwise
(used only to evaluate concrete runs in witnesses). -/
instance {e a : Type} [DecidableEq e] [DecidableEq a] :
    DecidableEq (Except e a) := fun x y =>
  match x, y with
  | .ok v, .ok w =>
    if h : v = w then .isTrue (by rw [h]) else .isFalse (by simp [h])
  | .error v, .error w =>
    if h : v = w then .isTrue (by rw [h]) else .isFalse (by simp [h])
  | .ok _, .error _ => .isFalse (by simp)
  | .error _, .ok _ => .isFalse (by simp)

/-- Failure modes of one `_generate_text` attempt. -/
inductive GenError where
  | serviceFailure
  | emptyResponse
deriving DecidableEq

/-- Failure modes of the analysis methods. -/
inductive AiError where
  | service (e : GenError)
  | malformedOutput
  | unsupportedLanguage
deriving DecidableEq

/-- The body of one `_generate_text` attempt (lines 273-330): a raised
exception propagates; an empty `response.text` raises
`ValueError('Empty response from Vertex AI')`, which the retry decorator
also catches; otherwise `response.text.strip()` is returned. -/
def genAttempt (resp : Except Unit (List Char)) : Except GenError (List Char) :=
  match resp with
  | .error _ => .error .serviceFailure
  | .ok t => if t = [] then .error .emptyResponse else .ok (pyStrip t)

/-- `wait_exponential(multiplier=1, min=4, max=10)` after attempt number
`attempt`: `2^attempt` seconds clamped into `[4, 10]`. -/
def waitExpDelay (attempt : Nat) : Nat := max 4 (min (2 ^ attempt) 10)

/-- The tenacity `@retry(stop=stop_after_attempt(3), wait=wait_exponential(...))`
loop (lines 246-249): run numbered attempts while fuel remains, sleeping the
computed delay between attempts. Returns the final outcome, the number of
attempts made, and the list of delays slept. -/
def retryLoop (service : List Char → Nat → Except Unit (List Char))
    (prompt : List Char) : Nat → Nat → Except GenError (List Char) × Nat × List Nat
  | attempt, 0 => (.error .serviceFailure, attempt - 1, [])
  | attempt, fuel + 1 =>
    match genAttempt (service prompt attempt) with
    | .ok t => (.ok t, attempt, [])
    | .error e =>
      if fuel = 0 then (.error e, attempt, [])
      else
        let r := retryLoop service prompt (attempt + 1) fuel
        (r.1, r.2.1, waitExpDelay attempt :: r.2.2)

/-- `VertexAIClient._generate_text` (lines 246-330): the retry-wrapped call,
with a budget of 3 attempts. -/
def generateText (service : List Char → Nat → Except Unit (List Char))
    (prompt : List Char) : Except GenError (List Char) × Nat × List Nat :=
  retryLoop service prompt 1 3

/-- The per-analysis-kind system-prompt texts (opaque to the claims). -/
structure Prompts where
  summary : List Char
  keyPoints : List Char
  risks : List Char
  translate : List Char → List Char

/-- Helper for `len(text.split())`: `inWord` records whether the previous
character was inside a word. -/
def wordCountAux : Bool → List Char → Nat
  | _, [] => 0
  | inWord, c :: rest =>
    if pws c then wordCountAux false rest
    else (if inWord then 0 else 1) + wordCountAux true rest

/-- `len(text.split())`, the word-count token approximation. -/
def wordCount (l : List Char) : Nat := wordCountAux false l

/-- Successful analysis payload: the parsed response text plus the
word-count token accounting attached by each analysis method. -/
structure AiResult where
  raw : List Char
  inputTokens : Nat
  outputTokens : Nat
  totalTokens : Nat
deriving DecidableEq

/-- The `full_prompt` of `summarize_document` (lines 447-450):
system prompt, the first 8000 characters of the text, and the optional
target-language instruction. -/
def summaryPrompt (P : Prompts) (text : List Char)
    (targetLanguage : Option (List Char)) : List Char :=
  P.summary ++ "\n\nDocument text:\n".data ++ text.take 8000 ++
    (match targetLanguage with
     | some tl => "\n\nPlease provide the summary in ".data ++ tl ++ ".".data
     | none => [])

/-- `VertexAIClient.summarize_document` (lines 406-491): one retry-wrapped
`_generate_text` call on the built prompt, then `json.loads` on the returned
text; a parse failure raises `ValueError` (MalformedOutput) without any
further service call. The second component counts service attempts made. -/
def summarizeDocument (P : Prompts)
    (service : List Char → Nat → Except Unit (List Char))
    (parse : List Char → Bool) (text : List Char)
    (targetLanguage : Option (List Char)) : Except AiError AiResult × Nat :=
  let inputTokens := wordCount text + wordCount P.summary
  match generateText service (summaryPrompt P text targetLanguage) with
  | (.error e, n, _) => (.error (.service e), n)
  | (.ok rt, n, _) =>
    if parse rt then
      (.ok ⟨rt, inputTokens, wordCount rt, inputTokens + wordCount rt⟩, n)
    else (.error .malformedOutput, n)

/-- The `full_prompt` of `extract_key_points` (lines 627-630): 7000-character
window. -/
def keyPointsPrompt (P : Prompts) (text : List Char)
    (targetLanguage : Option (List Char)) : List Char :=
  P.keyPoints ++ "\n\nDocument text:\n".data ++ text.take 7000 ++
    (match targetLanguage with
     | some tl =>
       "\n\nPlease provide the key points and explanations in ".data ++ tl ++ ".".data
     | none => [])

/-- `VertexAIClient.extract_key_points` (lines 581-664): same shape as
summarisation. -/
def extractKeyPoints (P : Prompts)
    (service : List Char → Nat → Except Unit (List Char))
    (parse : List Char → Bool) (text : List Char)
    (targetLanguage : Option (List Char)) : Except AiError AiResult × Nat :=
  let inputTokens := wordCount text + wordCount P.keyPoints
  match generateText service (keyPointsPrompt P text targetLanguage) with
  | (.error e, n, _) => (.error (.service e), n)
  | (.ok rt, n, _) =>
    if parse rt then
      (.ok ⟨rt, inputTokens, wordCount rt, inputTokens + wordCount rt⟩, n)
    else (.error .malformedOutput, n)

/-- The `full_prompt` of `detect_risks` (lines 721-724): 7000-character
window. -/
def risksPrompt (P : Prompts) (text : List Char)
    (targetLanguage : Option (List Char)) : List Char :=
  P.risks ++ "\n\nDocument text:\n".data ++ text.take 7000 ++
    (match targetLanguage with
     | some tl =>
       "\n\nPlease provide the risk analysis and rationale in ".data ++ tl ++ ".".data
     | none => [])

/-- `VertexAIClient.detect_risks` (lines 666-759): same shape as
summarisation. -/
def detectRisks (P : Prompts)
    (service : List Char → Nat → Except Unit (List Char))
    (parse : List Char → Bool) (text : List Char)
    (targetLanguage : Option (List Char)) : Except AiError AiResult × Nat :=
  let inputTokens := wordCount text + wordCount P.risks
  match generateText service (risksPrompt P text targetLanguage) with
  | (.error e, n, _) => (.error (.service e), n)
  | (.ok rt, n, _) =>
    if parse rt then
      (.ok ⟨rt, inputTokens, wordCount rt, inputTokens + wordCount rt⟩, n)
    else (.error .malformedOutput, n)

/-- The `supported_languages` table of `translate_content` (lines 513-522). -/
def supportedLanguages : List (List Char × List Char) :=
  [("en".data, "English".data), ("es".data, "Spanish".data),
   ("fr".data, "French".data), ("de".data, "German".data),
   ("it".data, "Italian".data), ("pt".data, "Portuguese".data),
   ("zh".data, "Chinese".data), ("ja".data, "Japanese".data)]

/-- `str.lower()` restricted to its ASCII action. -/
def lowerAscii (l : List Char) : List Char := l.map Char.toLower

/-- `VertexAIClient.translate_content` (lines 493-579): the lowercased
target-language code is checked against the fixed supported set; an
unsupported code raises `ValueError` before the prompt is built, so with
zero service calls. Otherwise one retry-wrapped call and a JSON parse, as
in summarisation (6000-character content window). -/
def translateContent (P : Prompts)
    (service : List Char → Nat → Except Unit (List Char))
    (parse : List Char → Bool) (content : List Char)
    (targetLanguage : List Char) : Except AiError AiResult × Nat :=
  let tl := lowerAscii targetLanguage
  match supportedLanguages.lookup tl with
  | none => (.error .unsupportedLanguage, 0)
  | some name =>
    let inputTokens := wordCount content + wordCount (P.translate name)
    match generateText service
        (P.translate name ++ "\n\nContent to translate:\n".data ++ content.take 6000) with
    | (.error e, n, _) => (.error (.service e), n)
    | (.ok rt, n, _) =>
      if parse rt then
        (.ok ⟨rt, inputTokens, wordCount rt, inputTokens + wordCount rt⟩, n)
      else (.error .malformedOutput, n)

/-! ## Firestore document operations
    (`apps/documents/services/firestore_service.py`, `FirestoreService`).
    The Firestore collection is modelled as a map from document id to the
    stored record; only the fields the verified operations read are kept. -/

/-- A stored document record: `doc_data.get('owner_uid')` may be absent, as
may the extracted text. Other stored fields (title, file type, storage path,
status, timestamps) are not read by the operations verified here. -/
structure FsDoc where
  owner_uid : Option String
  extracted_text : Option String
deriving DecidableEq

/-- `FirestoreService.get_document` (lines 91-120): a missing snapshot and
an owner mismatch both return `None`. -/
def getDocument (db : String → Option FsDoc) (docId callerUid : String) :
    Option FsDoc :=
  match db docId with
  | none => none
  | some r => if r.owner_uid = some callerUid then some r else none

/-- `FirestoreService.update_document` (lines 122-162): a missing snapshot
and an owner mismatch both return `False` without touching the store; on a
match the update dictionary (the collaborator `applyUpdates`) is applied.
Returns the flag and the resulting store. -/
def updateDocument (db : String → Option FsDoc) (docId callerUid : String)
    (applyUpdates : FsDoc → FsDoc) : Bool × (String → Option FsDoc) :=
  match db docId with
  | none => (false, db)
  | some r =>
    if r.owner_uid = some callerUid then
      (true, fun i => if i = docId then some (applyUpdates r) else db i)
    else (false, db)

/-- `FirestoreService.delete_document` (lines 164-195): a missing snapshot
and an owner mismatch both return `False` without touching the store. -/
def deleteDocument (db : String → Option FsDoc) (docId callerUid : String) :
    Bool × (String → Option FsDoc) :=
  match db docId with
  | none => (false, db)
  | some r =>
    if r.owner_uid = some callerUid then
      (true, fun i => if i = docId then none else db i)
    else (false, db)

/-! ## Analysis versioning and the analyze view
    (`apps/documents/views.py`, `DocumentAnalyzeView.post`, and
    `apps/documents/models.py`, `Analysis`). The Django `Analysis` table is
    modelled as the list of its `(document_id, version)` rows (the remaining
    columns play no role in version assignment); `unique_together
    = ['document_id', 'version']` makes the pair a key. -/

/-- `Analysis.objects.filter(document_id=d).order_by('-version').first()`
(views.py lines 717-719): the greatest stored version for the document, if
any row exists. -/
def maxVersionFor : List (String × Nat) → String → Option Nat
  | [], _ => none
  | p :: rest, d =>
    let m := maxVersionFor rest d
    if p.1 = d then
      some (match m with | none => p.2 | some v => max p.2 v)
    else m

/-- `next_version = (latest_analysis.version + 1) if latest_analysis else 1`
(views.py line 721). -/
def nextVersion (tbl : List (String × Nat)) (docId : String) : Nat :=
  match maxVersionFor tbl docId with
  | none => 1
  | some v => v + 1

/-- One version-assigning persist (views.py lines 715-779): read the current
maximum version, assign max+1, and create the row. Returns the assigned
version and the new table. -/
def persistAnalysis (tbl : List (String × Nat)) (docId : String) :
    Nat × List (String × Nat) :=
  let v := nextVersion tbl docId
  (v, (docId, v) :: tbl)

/-- `n` sequential (non-overlapping) successful analysis persists for one
document: the list of assigned versions and the final table. -/
def runSequentialAnalyses (tbl : List (String × Nat)) (docId : String) :
    Nat → List Nat × List (String × Nat)
  | 0 => ([], tbl)
  | n + 1 =>
    let p := persistAnalysis tbl docId
    let r := runSequentialAnalyses p.2 docId n
    (p.1 :: r.1, r.2)

/-- Externally visible outcome of `DocumentAnalyzeView.post`. -/
inductive PostResponse where
  | badRequestInvalidId
  | notFound
  | badRequestNoText
  | badRequestMissingTargetLanguage
  | badRequestUnsupportedType
  | badRequestAiFailure (e : AiError)
  | okResp (version : Nat)
deriving DecidableEq

/-- Outcome of the analysis-type dispatch (views.py lines 640-711). -/
inductive DispatchOutcome where
  | missingTarget
  | unsupportedType
  | aiFailure (e : AiError) (calls : Nat)
  | success (calls : Nat)
deriving DecidableEq

/-- The analysis-type dispatch of `DocumentAnalyzeView.post` (lines
640-711): `'all'` runs summary, key points, risks and (when a target
language is given) translation sequentially, a failure aborting the rest;
the single kinds run one analysis; `'translation'` without a target
language and unknown kinds yield direct 400 responses. The call count sums
the generative-service attempts of the issued analyses. -/
def runAnalysisDispatch (P : Prompts)
    (service : List Char → Nat → Except Unit (List Char))
    (parse : List Char → Bool) (text : List Char) (analysisType : String)
    (targetLanguage : Option (List Char)) : DispatchOutcome :=
  if analysisType = "all" then
    match summarizeDocument P service parse text targetLanguage with
    | (.error e, n) => .aiFailure e n
    | (.ok _, n1) =>
      match extractKeyPoints P service parse text targetLanguage with
      | (.error e, n) => .aiFailure e (n1 + n)
      | (.ok _, n2) =>
        match detectRisks P service parse text targetLanguage with
        | (.error e, n) => .aiFailure e (n1 + n2 + n)
        | (.ok _, n3) =>
          match targetLanguage with
          | none => .success (n1 + n2 + n3)
          | some tl =>
            match translateContent P service parse (text.take 2000) tl with
            | (.error e, n) => .aiFailure e (n1 + n2 + n3 + n)
            | (.ok _, n4) => .success (n1 + n2 + n3 + n4)
  else if analysisType = "summary" then
    match summarizeDocument P service parse text targetLanguage with
    | (.error e, n) => .aiFailure e n
    | (.ok _, n) => .success n
  else if analysisType = "key_points" then
    match extractKeyPoints P service parse text targetLanguage with
    | (.error e, n) => .aiFailure e n
    | (.ok _, n) => .success n
  else if analysisType = "risks" then
    match detectRisks P service parse text targetLanguage with
    | (.error e, n) => .aiFailure e n
    | (.ok _, n) => .success n
  else if analysisType = "translation" then
    match targetLanguage with
    | none => .missingTarget
    | some tl =>
      match translateContent P service parse (text.take 2000) tl with
      | (.error e, n) => .aiFailure e n
      | (.ok _, n) => .success n
  else .unsupportedType

/-- `DocumentAnalyzeView.post` (views.py lines 589-830): UUID validation,
owner-scoped document fetch, the extracted-text precondition (`if not
extracted_text`), the analysis dispatch, and on success the version-assigning
persist. Returns the response, the number of generative-service attempts
made, and the resulting `Analysis` table. The Firestore analysis mirror
write and the history log carry no version logic and are not modelled. -/
def documentAnalyzePost (validId : Bool) (db : String → Option FsDoc)
    (tbl : List (String × Nat)) (callerUid docId : String)
    (analysisType : String) (targetLanguage : Option (List Char))
    (P : Prompts) (service : List Char → Nat → Except Unit (List Char))
    (parse : List Char → Bool) : PostResponse × Nat × List (String × Nat) :=
  if ¬ validId then (.badRequestInvalidId, 0, tbl)
  else
    match getDocument db docId callerUid with
    | none => (.notFound, 0, tbl)
    | some doc =>
      match doc.extracted_text with
      | none => (.badRequestNoText, 0, tbl)
      | some et =>
        if et = "" then (.badRequestNoText, 0, tbl)
        else
          match runAnalysisDispatch P service parse et.data analysisType targetLanguage with
          | .missingTarget => (.badRequestMissingTargetLanguage, 0, tbl)
          | .unsupportedType => (.badRequestUnsupportedType, 0, tbl)
          | .aiFailure e n => (.badRequestAiFailure e, n, tbl)
          | .success n =>
            let p := persistAnalysis tbl docId
            (.okResp p.1, n, p.2)

/-! ## Lemmas: characters and scanners -/

theorem sptab_eq_space_or_tab {c : Char} (h : sptab c = true) :
    c = ' ' ∨ c = '\t' := by
  simpa [sptab] using h

theorem hasDoubleSpace_tail {a : Char} {l : List Char}
    (h : hasDoubleSpace (a :: l) = false) : hasDoubleSpace l = false := by
  match l with
  | [] => rfl
  | b :: r =>
    simp only [hasDoubleSpace, Bool.or_eq_false_iff] at h
    exact h.2

theorem hasDoubleSpace_cons_iff {a : Char} {l : List Char} :
    hasDoubleSpace (a :: l) = false ↔
      hasDoubleSpace l = false ∧ ¬(a = ' ' ∧ l.head? = some ' ') := by
  match l with
  | [] => simp [hasDoubleSpace]
  | b :: r =>
    simp only [hasDoubleSpace, Bool.or_eq_false_iff, Bool.and_eq_false_iff,
      List.head?_cons, Option.some.injEq, decide_eq_false_iff_not]
    constructor
    · rintro ⟨h1, h2⟩
      refine ⟨h2, ?_⟩
      rintro ⟨rfl, rfl⟩
      rcases h1 with h | h <;> exact h rfl
    · rintro ⟨h2, h1⟩
      refine ⟨?_, h2⟩
      by_cases ha : a = ' '
      · right; intro hb; exact h1 ⟨ha, hb⟩
      · left; exact ha

theorem hasDoubleSpace_append {x y : List Char}
    (hx : hasDoubleSpace x = false) (hy : hasDoubleSpace y = false)
    (hj : ¬(x.getLast? = some ' ' ∧ y.head? = some ' ')) :
    hasDoubleSpace (x ++ y) = false := by
  induction x with
  | nil => simpa using hy
  | cons a x ih =>
    rw [List.cons_append, hasDoubleSpace_cons_iff]
    have hx' := hasDoubleSpace_cons_iff.mp hx
    match x with
    | [] =>
      refine ⟨by simpa using hy, ?_⟩
      rintro ⟨ha, hh⟩
      exact hj ⟨by simp [ha], by simpa using hh⟩
    | b :: x' =>
      refine ⟨ih hx'.1 (by simpa [List.getLast?_cons_cons] using hj), ?_⟩
      rintro ⟨ha, hh⟩
      simp only [List.cons_append, List.head?_cons] at hh
      exact hx'.2 ⟨ha, by simpa using hh⟩

theorem hasDoubleSpace_of_noSpace {l : List Char} (h : ' ' ∉ l) :
    hasDoubleSpace l = false := by
  induction l with
  | nil => rfl
  | cons a l ih =>
    rw [hasDoubleSpace_cons_iff]
    refine ⟨ih (fun hm => h (List.mem_cons_of_mem _ hm)), ?_⟩
    rintro ⟨rfl, _⟩
    exact h (List.mem_cons_self _ _)

theorem hasTripleNl_tail {a : Char} {l : List Char}
    (h : hasTripleNl (a :: l) = false) : hasTripleNl l = false := by
  match l with
  | [] => rfl
  | [b] => rfl
  | b :: c :: r =>
    simp only [hasTripleNl, Bool.or_eq_false_iff] at h
    exact h.2

theorem hasTripleNl_append_right {x y : List Char}
    (h : hasTripleNl (x ++ y) = false) : hasTripleNl y = false := by
  induction x with
  | nil => simpa using h
  | cons a x ih =>
    rw [List.cons_append] at h
    exact ih (hasTripleNl_tail h)

/-! ## Lemmas: line-ending normalisation -/

theorem replaceCRLF_cons_ne (c' : Char) (rest : List Char)
    (hg : ∀ r, c' = '\r' → rest = '\n' :: r → False) :
    replaceCRLF (c' :: rest) = c' :: replaceCRLF rest := by
  rw [replaceCRLF.eq_def]
  split
  · rename_i r' heq
    injection heq with h1 h2
    exact absurd (hg r' h1 h2) (by simp)
  · rename_i a b hb heq
    injection heq with h1 h2
    rw [← h1, ← h2]
  · rename_i hb heq
    exact absurd heq (by simp)

theorem mem_replaceCRLF {c : Char} {l : List Char} (h : c ∈ replaceCRLF l) :
    c ∈ l ∨ c = '\n' := by
  induction l using replaceCRLF.induct with
  | case1 rest ih =>
    rw [replaceCRLF] at h
    rcases List.mem_cons.mp h with rfl | h
    · exact Or.inr rfl
    · rcases ih h with h | h
      · exact Or.inl (by simp [h])
      · exact Or.inr h
  | case2 c' rest hg ih =>
    rw [replaceCRLF_cons_ne c' rest hg] at h
    rcases List.mem_cons.mp h with rfl | h
    · exact Or.inl (List.mem_cons_self _ _)
    · rcases ih h with h | h
      · exact Or.inl (List.mem_cons_of_mem _ h)
      · exact Or.inr h
  | case3 =>
    rw [replaceCRLF] at h
    simp at h

theorem noCR_replaceCR (l : List Char) : '\r' ∉ replaceCR l := by
  intro hmem
  rw [replaceCR, List.mem_map] at hmem
  obtain ⟨x, -, hx⟩ := hmem
  by_cases h : x = '\r'
  · rw [if_pos h] at hx
    exact absurd hx (by decide)
  · rw [if_neg h] at hx
    exact h hx

theorem mem_of_getLast?_eq {α : Type} {l : List α} {a : α}
    (h : l.getLast? = some a) : a ∈ l := by
  induction l with
  | nil => simp at h
  | cons b l ih =>
    match l with
    | [] =>
      simp only [List.getLast?_singleton, Option.some.injEq] at h
      simp [h]
    | c :: l' =>
      rw [List.getLast?_cons_cons] at h
      exact List.mem_cons_of_mem _ (ih h)

theorem replaceCRLF_eq_self {l : List Char} (h : '\r' ∉ l) :
    replaceCRLF l = l := by
  induction l using replaceCRLF.induct with
  | case1 rest ih => exact absurd (List.mem_cons_self _ _) h
  | case2 c' rest hg ih =>
    rw [replaceCRLF_cons_ne c' rest hg,
      ih (fun hm => h (List.mem_cons_of_mem _ hm))]
  | case3 => rfl

theorem replaceCR_eq_self {l : List Char} (h : '\r' ∉ l) :
    replaceCR l = l := by
  induction l with
  | nil => rfl
  | cons a l ih =>
    have ha : a ≠ '\r' := fun hh => h (by simp [hh])
    simp only [replaceCR, List.map_cons, if_neg ha]
    have := ih (fun hm => h (List.mem_cons_of_mem _ hm))
    simp only [replaceCR] at this
    rw [this]

/-! ## Lemmas: horizontal-whitespace collapsing -/

theorem noTab_collapseSpaces (l : List Char) : '\t' ∉ collapseSpaces l := by
  induction l using collapseSpaces.induct with
  | case1 => simp [collapseSpaces]
  | case2 c h => simp [collapseSpaces, h]
  | case3 c h =>
    simp [collapseSpaces, h]
    intro hh
    rw [← hh] at h
    simp [sptab] at h
  | case4 c₁ c₂ rest h ih => simpa [collapseSpaces, h] using ih
  | case5 c₁ c₂ rest h ih =>
    simp only [collapseSpaces, h, if_false, List.mem_cons, not_or,
      Bool.false_eq_true]
    refine ⟨?_, ih⟩
    split
    · decide
    · rename_i hs
      intro hh
      rw [← hh] at hs
      simp [sptab] at hs

theorem mem_collapseSpaces {c : Char} {l : List Char}
    (h : c ∈ collapseSpaces l) : c ∈ l ∨ c = ' ' := by
  induction l using collapseSpaces.induct with
  | case1 => simp [collapseSpaces] at h
  | case2 c' h' =>
    simp only [collapseSpaces, h', if_true] at h
    simp at h
    exact Or.inr h
  | case3 c' h' =>
    simp only [collapseSpaces, h', if_false] at h
    simp at h
    exact Or.inl (by simp [h])
  | case4 c₁ c₂ rest h' ih =>
    simp only [collapseSpaces, h', if_true] at h
    rcases ih h with hm | hm
    · exact Or.inl (List.mem_cons_of_mem _ hm)
    · exact Or.inr hm
  | case5 c₁ c₂ rest h' ih =>
    simp only [collapseSpaces] at h
    rw [if_neg h'] at h
    rcases List.mem_cons.mp h with hm | hm
    · by_cases hs : sptab c₁ = true
      · rw [if_pos hs] at hm
        exact Or.inr hm
      · rw [if_neg hs] at hm
        exact Or.inl (by simp [hm])
    · rcases ih hm with hm' | hm'
      · exact Or.inl (List.mem_cons_of_mem _ hm')
      · exact Or.inr hm'

theorem head_collapseSpaces (c : Char) (rest : List Char) :
    (collapseSpaces (c :: rest)).head? = some (if sptab c then ' ' else c) := by
  induction rest generalizing c with
  | nil =>
    simp only [collapseSpaces]
    split <;> simp
  | cons c₂ r ih =>
    simp only [collapseSpaces]
    by_cases h : (sptab c && sptab c₂) = true
    · rw [if_pos h, ih c₂]
      rcases Bool.and_eq_true_iff.mp h with ⟨h1, h2⟩
      simp [h1, h2]
    · rw [if_neg h]
      simp

theorem noDS_collapseSpaces (l : List Char) :
    hasDoubleSpace (collapseSpaces l) = false := by
  induction l using collapseSpaces.induct with
  | case1 => rfl
  | case2 c h => simp [collapseSpaces, h, hasDoubleSpace]
  | case3 c h => simp [collapseSpaces, h, hasDoubleSpace]
  | case4 c₁ c₂ rest h ih => simpa [collapseSpaces, h] using ih
  | case5 c₁ c₂ rest h ih =>
    simp only [collapseSpaces]
    rw [if_neg h, hasDoubleSpace_cons_iff]
    refine ⟨ih, ?_⟩
    rintro ⟨hsp, hhd⟩
    rw [head_collapseSpaces] at hhd
    have hc2 : (if sptab c₂ = true then ' ' else c₂) = ' ' := by
      simpa using hhd
    have h2 : sptab c₂ = true := by
      by_cases hs : sptab c₂ = true
      · exact hs
      · rw [if_neg hs] at hc2
        rw [hc2] at hs
        simp [sptab] at hs
    have h1 : sptab c₁ = true := by
      by_cases hs : sptab c₁ = true
      · exact hs
      · split at hsp
        · simp_all
        · rw [hsp] at hs
          simp [sptab] at hs
    simp [h1, h2] at h

theorem collapseSpaces_eq_self {l : List Char} (h1 : '\t' ∉ l)
    (h2 : hasDoubleSpace l = false) : collapseSpaces l = l := by
  induction l using collapseSpaces.induct with
  | case1 => rfl
  | case2 c h =>
    rcases sptab_eq_space_or_tab h with rfl | rfl
    · simp [collapseSpaces, h]
    · exact absurd (List.mem_cons_self _ _) h1
  | case3 c h => simp [collapseSpaces, h]
  | case4 c₁ c₂ rest h ih =>
    rcases Bool.and_eq_true_iff.mp h with ⟨ha, hb⟩
    rcases sptab_eq_space_or_tab ha with rfl | rfl
    · rcases sptab_eq_space_or_tab hb with rfl | rfl
      · simp [hasDoubleSpace] at h2
      · exact absurd (by simp : '\t' ∈ _) h1
    · exact absurd (List.mem_cons_self _ _) h1
  | case5 c₁ c₂ rest h ih =>
    simp only [collapseSpaces]
    rw [if_neg h]
    have hrest : collapseSpaces (c₂ :: rest) = c₂ :: rest :=
      ih (fun hm => h1 (List.mem_cons_of_mem _ hm)) (hasDoubleSpace_tail h2)
    rw [hrest]
    congr 1
    by_cases hs : sptab c₁ = true
    · rw [if_pos hs]
      rcases sptab_eq_space_or_tab hs with rfl | rfl
      · rfl
      · exact absurd (List.mem_cons_self _ _) h1
    · rw [if_neg hs]

/-! ## Lemmas: newline-run collapsing -/

theorem collapseNlAux_cons_nl (p : Nat) (rest : List Char) :
    collapseNlAux p ('\n' :: rest) = collapseNlAux (p + 1) rest := by
  simp [collapseNlAux]

theorem collapseNlAux_cons_other {c : Char} (hc : c ≠ '\n') (p : Nat)
    (rest : List Char) : collapseNlAux p (c :: rest)
      = List.replicate (min p 2) '\n' ++ c :: collapseNlAux 0 rest := by
  simp [collapseNlAux, hc]

theorem mem_collapseNlAux {c : Char} : ∀ {p : Nat} {l : List Char},
    c ∈ collapseNlAux p l → c ∈ l ∨ c = '\n' := by
  intro p l
  induction l generalizing p with
  | nil =>
    intro h
    rw [collapseNlAux, List.mem_replicate] at h
    exact Or.inr h.2
  | cons a rest ih =>
    intro h
    by_cases hc : a = '\n'
    · subst hc
      rw [collapseNlAux_cons_nl] at h
      rcases ih h with h | h
      · exact Or.inl (List.mem_cons_of_mem _ h)
      · exact Or.inr h
    · rw [collapseNlAux_cons_other hc] at h
      rcases List.mem_append.mp h with h | h
      · rw [List.mem_replicate] at h
        exact Or.inr h.2
      · rcases List.mem_cons.mp h with rfl | h
        · exact Or.inl (List.mem_cons_self _ _)
        · rcases ih h with h | h
          · exact Or.inl (List.mem_cons_of_mem _ h)
          · exact Or.inr h

theorem head_collapseNlAux_pos : ∀ {p : Nat} (l : List Char), 1 ≤ p →
    (collapseNlAux p l).head? = some '\n' := by
  intro p l
  induction l generalizing p with
  | nil =>
    intro hp
    have hm : min p 2 = (min p 2 - 1) + 1 := by omega
    rw [collapseNlAux, hm, List.replicate_succ]
    rfl
  | cons c rest ih =>
    intro hp
    by_cases hc : c = '\n'
    · subst hc
      rw [collapseNlAux_cons_nl]
      exact ih (by omega)
    · rw [collapseNlAux_cons_other hc]
      have hm : min p 2 = (min p 2 - 1) + 1 := by omega
      rw [hm, List.replicate_succ]
      rfl

theorem head_collapseNlAux_zero (l : List Char) :
    (collapseNlAux 0 l).head? = l.head? := by
  cases l with
  | nil => rfl
  | cons c rest =>
    by_cases hc : c = '\n'
    · subst hc
      rw [collapseNlAux_cons_nl, head_collapseNlAux_pos _ (by omega)]
      rfl
    · rw [collapseNlAux_cons_other hc]
      simp

theorem noDS_collapseNlAux : ∀ (p : Nat) {l : List Char},
    hasDoubleSpace l = false → hasDoubleSpace (collapseNlAux p l) = false := by
  intro p l
  induction l generalizing p with
  | nil =>
    intro _
    exact hasDoubleSpace_of_noSpace (by
      intro hm
      rw [collapseNlAux, List.mem_replicate] at hm
      exact absurd hm.2 (by decide))
  | cons c rest ih =>
    intro h
    by_cases hc : c = '\n'
    · subst hc
      rw [collapseNlAux_cons_nl]
      exact ih _ (hasDoubleSpace_tail h)
    · rw [collapseNlAux_cons_other hc]
      apply hasDoubleSpace_append
      · exact hasDoubleSpace_of_noSpace (fun hm => by
          rw [List.mem_replicate] at hm
          exact absurd hm.2 (by decide))
      · rw [hasDoubleSpace_cons_iff]
        refine ⟨ih 0 (hasDoubleSpace_tail h), ?_⟩
        rintro ⟨rfl, hh⟩
        rw [head_collapseNlAux_zero] at hh
        exact (hasDoubleSpace_cons_iff.mp h).2 ⟨rfl, hh⟩
      · rintro ⟨hl, _⟩
        have hm := mem_of_getLast?_eq hl
        rw [List.mem_replicate] at hm
        exact absurd hm.2 (by decide)

theorem collapseNlAux_eq_self : ∀ {p : Nat} {l : List Char}, p ≤ 2 →
    hasTripleNl (List.replicate p '\n' ++ l) = false →
    collapseNlAux p l = List.replicate p '\n' ++ l := by
  intro p l
  induction l generalizing p with
  | nil =>
    intro hp _
    simp [collapseNlAux, Nat.min_eq_left hp]
  | cons c rest ih =>
    intro hp h
    by_cases hc : c = '\n'
    · subst hc
      have hp1 : p ≤ 1 := by
        by_contra hgt
        have hp2 : p = 2 := by omega
        subst hp2
        have hrw : List.replicate 2 '\n' = ['\n', '\n'] := rfl
        rw [hrw] at h
        simp [hasTripleNl] at h
      have heq : List.replicate (p + 1) '\n' ++ rest
          = List.replicate p '\n' ++ '\n' :: rest := by
        rw [List.replicate_succ', List.append_assoc]
        rfl
      have h' : hasTripleNl (List.replicate (p + 1) '\n' ++ rest) = false := by
        rw [heq]; exact h
      rw [collapseNlAux_cons_nl, ih (by omega) h', heq]
    · have h2 : hasTripleNl rest = false :=
        hasTripleNl_tail (hasTripleNl_append_right h)
      have h0 := @ih 0 (by omega) (by simpa using h2)
      rw [collapseNlAux_cons_other hc, Nat.min_eq_left hp]
      simp only [List.replicate_zero, List.nil_append] at h0
      rw [h0]

theorem collapseNlAux_nonNl {l : List Char} (h : '\n' ∉ l) :
    collapseNlAux 0 l = l := by
  induction l with
  | nil => rfl
  | cons c rest ih =>
    have hc : c ≠ '\n' := fun hh => h (by simp [hh])
    rw [collapseNlAux_cons_other hc, ih (fun hm => h (List.mem_cons_of_mem _ hm))]
    simp

theorem collapseNlAux_append_free {a y : List Char} (h : '\n' ∉ a) :
    collapseNlAux 0 (a ++ y) = a ++ collapseNlAux 0 y := by
  induction a with
  | nil => rfl
  | cons c a' ih =>
    have hc : c ≠ '\n' := fun hh => h (by simp [hh])
    rw [List.cons_append, collapseNlAux_cons_other hc,
      ih (fun hm => h (List.mem_cons_of_mem _ hm))]
    simp

theorem collapseNlAux_run (b : List Char) : ∀ (p k : Nat),
    collapseNlAux p (List.replicate k '\n' ++ b) = collapseNlAux (p + k) b := by
  intro p k
  induction k generalizing p with
  | zero => rfl
  | succ k ih =>
    rw [List.replicate_succ, List.cons_append, collapseNlAux_cons_nl, ih (p + 1)]
    have he : p + 1 + k = p + (k + 1) := by omega
    rw [he]

theorem collapseNlAux_flush {b : List Char} (h : '\n' ∉ b) (q : Nat) :
    collapseNlAux q b = List.replicate (min q 2) '\n' ++ b := by
  cases b with
  | nil => simp [collapseNlAux]
  | cons c rest =>
    have hc : c ≠ '\n' := fun hh => h (by simp [hh])
    rw [collapseNlAux_cons_other hc,
      collapseNlAux_nonNl (fun hm => h (List.mem_cons_of_mem _ hm))]

theorem collapseNewlines_run {a b : List Char} (ha : '\n' ∉ a) (hb : '\n' ∉ b)
    (k : Nat) : collapseNewlines (a ++ List.replicate k '\n' ++ b)
      = a ++ List.replicate (min k 2) '\n' ++ b := by
  rw [collapseNewlines, List.append_assoc, collapseNlAux_append_free ha,
    collapseNlAux_run, collapseNlAux_flush hb]
  simp

/-! ## Lemmas: splitting and joining lines -/

theorem splitOnNl_cons_nl (rest : List Char) :
    splitOnNl ('\n' :: rest) = [] :: splitOnNl rest := by
  simp [splitOnNl]

theorem splitOnNl_ne_nil (l : List Char) : splitOnNl l ≠ [] := by
  cases l with
  | nil => simp [splitOnNl]
  | cons c rest =>
    by_cases hc : c = '\n'
    · subst hc
      rw [splitOnNl_cons_nl]
      simp
    · simp only [splitOnNl, if_neg hc]
      cases splitOnNl rest <;> simp

theorem splitOnNl_cons_eq {c : Char} (hc : c ≠ '\n') {rest : List Char}
    {l₀ : List Char} {ls : List (List Char)} (h : splitOnNl rest = l₀ :: ls) :
    splitOnNl (c :: rest) = (c :: l₀) :: ls := by
  simp [splitOnNl, hc, h]

theorem joinNl_cons_ne {l : List Char} {ls : List (List Char)} (h : ls ≠ []) :
    joinNl (l :: ls) = l ++ '\n' :: joinNl ls := by
  match ls with
  | [] => exact absurd rfl h
  | x :: xs => rfl

theorem joinNl_splitOnNl (l : List Char) : joinNl (splitOnNl l) = l := by
  induction l with
  | nil => rfl
  | cons c rest ih =>
    by_cases hc : c = '\n'
    · subst hc
      rw [splitOnNl_cons_nl, joinNl_cons_ne (splitOnNl_ne_nil rest)]
      simp [ih]
    · cases hsp : splitOnNl rest with
      | nil => exact absurd hsp (splitOnNl_ne_nil rest)
      | cons l₀ ls =>
        rw [splitOnNl_cons_eq hc hsp]
        rw [hsp] at ih
        cases ls with
        | nil =>
          simp only [joinNl] at ih ⊢
          rw [ih]
        | cons x xs =>
          rw [joinNl_cons_ne (by simp), List.cons_append,
            ← joinNl_cons_ne (by simp : x :: xs ≠ []), ih]

theorem noNl_of_mem_splitOnNl {l' l : List Char} (hm : l' ∈ splitOnNl l) :
    '\n' ∉ l' := by
  induction l generalizing l' with
  | nil =>
    simp [splitOnNl] at hm
    simp [hm]
  | cons c rest ih =>
    by_cases hc : c = '\n'
    · subst hc
      rw [splitOnNl_cons_nl] at hm
      rcases List.mem_cons.mp hm with rfl | hm
      · simp
      · exact ih hm
    · cases hsp : splitOnNl rest with
      | nil => exact absurd hsp (splitOnNl_ne_nil rest)
      | cons l₀ ls =>
        rw [splitOnNl_cons_eq hc hsp] at hm
        rcases List.mem_cons.mp hm with rfl | hm
        · intro hmem
          rcases List.mem_cons.mp hmem with heq | hmem
          · exact hc heq.symm
          · exact ih (hsp ▸ List.mem_cons_self _ _) hmem
        · exact ih (hsp ▸ List.mem_cons_of_mem _ hm)

theorem mem_of_mem_splitOnNl {c : Char} {l' l : List Char}
    (hm : l' ∈ splitOnNl l) (hc : c ∈ l') : c ∈ l := by
  induction l generalizing l' with
  | nil =>
    simp [splitOnNl] at hm
    subst hm
    simp at hc
  | cons a rest ih =>
    by_cases ha : a = '\n'
    · subst ha
      rw [splitOnNl_cons_nl] at hm
      rcases List.mem_cons.mp hm with rfl | hm
      · simp at hc
      · exact List.mem_cons_of_mem _ (ih hm hc)
    · cases hsp : splitOnNl rest with
      | nil => exact absurd hsp (splitOnNl_ne_nil rest)
      | cons l₀ ls =>
        rw [splitOnNl_cons_eq ha hsp] at hm
        rcases List.mem_cons.mp hm with rfl | hm
        · rcases List.mem_cons.mp hc with rfl | hc
          · exact List.mem_cons_self _ _
          · exact List.mem_cons_of_mem _
              (ih (hsp ▸ List.mem_cons_self _ _) hc)
        · exact List.mem_cons_of_mem _
            (ih (hsp ▸ List.mem_cons_of_mem _ hm) hc)

theorem splitOnNl_noNl {l : List Char} (h : '\n' ∉ l) : splitOnNl l = [l] := by
  induction l with
  | nil => rfl
  | cons c rest ih =>
    have hc : c ≠ '\n' := fun hh => h (by simp [hh])
    exact splitOnNl_cons_eq hc (ih (fun hm => h (List.mem_cons_of_mem _ hm)))

theorem splitOnNl_append_nl {a : List Char} (ha : '\n' ∉ a) (y : List Char) :
    splitOnNl (a ++ '\n' :: y) = a :: splitOnNl y := by
  induction a with
  | nil => exact splitOnNl_cons_nl y
  | cons c a' ih =>
    have hc : c ≠ '\n' := fun hh => ha (by simp [hh])
    rw [List.cons_append]
    exact splitOnNl_cons_eq hc (ih (fun hm => ha (List.mem_cons_of_mem _ hm)))

theorem splitOnNl_joinNl : ∀ {L : List (List Char)}, L ≠ [] →
    (∀ l ∈ L, '\n' ∉ l) → splitOnNl (joinNl L) = L := by
  intro L
  induction L with
  | nil => intro h _; exact absurd rfl h
  | cons l L' ih =>
    intro _ hfree
    cases L' with
    | nil =>
      show splitOnNl (joinNl [l]) = [l]
      exact splitOnNl_noNl (hfree l (List.mem_cons_self _ _))
    | cons x xs =>
      rw [joinNl_cons_ne (by simp),
        splitOnNl_append_nl (hfree l (List.mem_cons_self _ _)),
        ih (by simp) (fun m hm => hfree m (List.mem_cons_of_mem _ hm))]

theorem head_of_splitOnNl_head {x l₀ : List Char} {ls : List (List Char)}
    {d : Char} (hsp : splitOnNl x = l₀ :: ls) (hh : l₀.head? = some d) :
    x.head? = some d := by
  cases x with
  | nil =>
    simp [splitOnNl] at hsp
    rw [hsp.1] at hh
    exact hh
  | cons e r =>
    by_cases he : e = '\n'
    · subst he
      rw [splitOnNl_cons_nl] at hsp
      injection hsp with h1 h2
      rw [← h1] at hh
      simp at hh
    · cases hsr : splitOnNl r with
      | nil => exact absurd hsr (splitOnNl_ne_nil r)
      | cons m ms =>
        rw [splitOnNl_cons_eq he hsr] at hsp
        injection hsp with h1 h2
        rw [← h1] at hh
        simpa using hh

theorem noDS_of_mem_splitOnNl {t l : List Char}
    (h : hasDoubleSpace t = false) (hm : l ∈ splitOnNl t) :
    hasDoubleSpace l = false := by
  induction t generalizing l with
  | nil =>
    simp [splitOnNl] at hm
    rw [hm]
    rfl
  | cons c rest ih =>
    by_cases hc : c = '\n'
    · subst hc
      rw [splitOnNl_cons_nl] at hm
      rcases List.mem_cons.mp hm with rfl | hm
      · rfl
      · exact ih (hasDoubleSpace_tail h) hm
    · cases hsp : splitOnNl rest with
      | nil => exact absurd hsp (splitOnNl_ne_nil rest)
      | cons l₀ ls =>
        rw [splitOnNl_cons_eq hc hsp] at hm
        rcases List.mem_cons.mp hm with rfl | hm
        · rw [hasDoubleSpace_cons_iff]
          refine ⟨ih (hasDoubleSpace_tail h) (hsp ▸ List.mem_cons_self _ _), ?_⟩
          rintro ⟨rfl, hh⟩
          exact (hasDoubleSpace_cons_iff.mp h).2
            ⟨rfl, head_of_splitOnNl_head hsp hh⟩
        · exact ih (hasDoubleSpace_tail h) (hsp ▸ List.mem_cons_of_mem _ hm)

theorem noDS_joinNl {L : List (List Char)}
    (h : ∀ l ∈ L, hasDoubleSpace l = false) :
    hasDoubleSpace (joinNl L) = false := by
  induction L with
  | nil => rfl
  | cons l L' ih =>
    cases L' with
    | nil => exact h l (List.mem_cons_self _ _)
    | cons x xs =>
      rw [joinNl_cons_ne (by simp)]
      apply hasDoubleSpace_append (h l (List.mem_cons_self _ _))
      · rw [hasDoubleSpace_cons_iff]
        refine ⟨ih (fun m hm => h m (List.mem_cons_of_mem _ hm)), ?_⟩
        rintro ⟨hh, _⟩
        exact absurd hh (by decide)
      · rintro ⟨_, hh⟩
        simp at hh

/-! ## Lemmas: stripping -/

theorem lstrip_cons_pos {c : Char} (h : pws c = true) (rest : List Char) :
    lstrip (c :: rest) = lstrip rest := by
  simp [lstrip, List.dropWhile_cons, h]

theorem lstrip_cons_neg {c : Char} (h : pws c = false) (rest : List Char) :
    lstrip (c :: rest) = c :: rest := by
  simp [lstrip, List.dropWhile_cons, h]

theorem mem_lstrip {c : Char} {l : List Char} (h : c ∈ lstrip l) : c ∈ l := by
  induction l with
  | nil => exact h
  | cons a rest ih =>
    by_cases ha : pws a = true
    · rw [lstrip_cons_pos ha] at h
      exact List.mem_cons_of_mem _ (ih h)
    · rw [lstrip_cons_neg (by simpa using ha)] at h
      exact h

theorem lstrip_idem (l : List Char) : lstrip (lstrip l) = lstrip l := by
  simp only [lstrip]
  exact List.dropWhile_idempotent _ _

theorem head_lstrip {c : Char} {l r : List Char} (h : lstrip l = c :: r) :
    pws c = false := by
  induction l with
  | nil => simp [lstrip] at h
  | cons a rest ih =>
    by_cases ha : pws a = true
    · rw [lstrip_cons_pos ha] at h
      exact ih h
    · rw [lstrip_cons_neg (by simpa using ha)] at h
      injection h with h1 _
      rw [← h1]
      simpa using ha

theorem lstrip_eq_self_of_head {l : List Char}
    (h : ∀ c r, l = c :: r → pws c = false) : lstrip l = l := by
  cases l with
  | nil => rfl
  | cons c r => exact lstrip_cons_neg (h c r rfl) r

theorem lstrip_length (l : List Char) : (lstrip l).length ≤ l.length := by
  induction l with
  | nil => simp [lstrip]
  | cons a rest ih =>
    by_cases ha : pws a = true
    · rw [lstrip_cons_pos ha]
      exact Nat.le_trans ih (by simp)
    · rw [lstrip_cons_neg (by simpa using ha)]

theorem lstrip_eq_of_length {l : List Char}
    (h : (lstrip l).length = l.length) : lstrip l = l := by
  cases l with
  | nil => rfl
  | cons a rest =>
    by_cases ha : pws a = true
    · rw [lstrip_cons_pos ha] at h ⊢
      have := lstrip_length rest
      simp at h
      omega
    · exact lstrip_cons_neg (by simpa using ha) rest

theorem rstrip_cons_of_nil {a : Char} {rest : List Char}
    (hr : rstrip rest = []) :
    rstrip (a :: rest) = if pws a = true then [] else [a] := by
  rw [rstrip, hr]

theorem rstrip_cons_of_cons {a : Char} {rest : List Char} {y : Char}
    {ys : List Char} (hr : rstrip rest = y :: ys) :
    rstrip (a :: rest) = a :: y :: ys := by
  rw [rstrip, hr]

theorem mem_rstrip {c : Char} {l : List Char} (h : c ∈ rstrip l) : c ∈ l := by
  induction l with
  | nil => exact h
  | cons a rest ih =>
    rcases hr : rstrip rest with _ | ⟨x, xs⟩
    · rw [rstrip_cons_of_nil hr] at h
      by_cases ha : pws a = true
      · rw [if_pos ha] at h
        simp at h
      · rw [if_neg ha] at h
        rcases List.mem_cons.mp h with rfl | h
        · exact List.mem_cons_self _ _
        · simp at h
    · rw [rstrip_cons_of_cons hr] at h
      rcases List.mem_cons.mp h with rfl | h
      · exact List.mem_cons_self _ _
      · exact List.mem_cons_of_mem _ (ih (hr ▸ h))

theorem head_rstrip {l : List Char} (h : rstrip l ≠ []) :
    (rstrip l).head? = l.head? := by
  cases l with
  | nil => rfl
  | cons a rest =>
    rcases hr : rstrip rest with _ | ⟨x, xs⟩
    · rw [rstrip_cons_of_nil hr] at h ⊢
      by_cases ha : pws a = true
      · rw [if_pos ha] at h
        exact absurd rfl h
      · rw [if_neg ha]
        rfl
    · rw [rstrip_cons_of_cons hr]
      rfl

theorem rstrip_length (l : List Char) : (rstrip l).length ≤ l.length := by
  induction l with
  | nil => simp [rstrip]
  | cons a rest ih =>
    rcases hr : rstrip rest with _ | ⟨x, xs⟩
    · rw [rstrip_cons_of_nil hr]
      split <;> simp
    · rw [rstrip_cons_of_cons hr]
      rw [hr] at ih
      simpa using Nat.succ_le_succ ih

theorem rstrip_idem (l : List Char) : rstrip (rstrip l) = rstrip l := by
  induction l with
  | nil => rfl
  | cons a rest ih =>
    rcases hr : rstrip rest with _ | ⟨x, xs⟩
    · rw [rstrip_cons_of_nil hr]
      by_cases ha : pws a = true
      · rw [if_pos ha]
        rfl
      · rw [if_neg ha, rstrip_cons_of_nil (show rstrip [] = [] from rfl),
          if_neg ha]
    · rw [rstrip_cons_of_cons hr]
      rw [hr] at ih
      rw [rstrip_cons_of_cons ih]

theorem rstrip_cons_fixed {c : Char} {x : List Char}
    (h : rstrip (c :: x) = c :: x) : rstrip x = x := by
  rcases hr : rstrip x with _ | ⟨y, ys⟩
  · rw [rstrip_cons_of_nil hr] at h
    by_cases hc : pws c = true
    · rw [if_pos hc] at h
      simp at h
    · rw [if_neg hc] at h
      injection h with _ h2
  · rw [rstrip_cons_of_cons hr] at h
    injection h with _ h2


theorem rstrip_eq_self_of_last {l : List Char}
    (h : ∀ c, l.getLast? = some c → pws c = false) : rstrip l = l := by
  induction l with
  | nil => rfl
  | cons a rest ih =>
    cases rest with
    | nil =>
      have ha := h a (by simp)
      rw [rstrip_cons_of_nil (show rstrip [] = [] from rfl), if_neg (by simp [ha])]
    | cons b r =>
      have hr : rstrip (b :: r) = b :: r :=
        ih (fun c hc => h c (by rw [List.getLast?_cons_cons]; exact hc))
      rw [rstrip_cons_of_cons hr]

theorem pyStrip_idem (l : List Char) : pyStrip (pyStrip l) = pyStrip l := by
  rw [pyStrip, pyStrip]
  have h1 : lstrip (rstrip (lstrip l)) = rstrip (lstrip l) := by
    apply lstrip_eq_self_of_head
    intro c r hcr
    have hne : rstrip (lstrip l) ≠ [] := by simp [hcr]
    have hh := head_rstrip hne
    rw [hcr] at hh
    cases hl : lstrip l with
    | nil =>
      rw [hl] at hh
      simp at hh
    | cons d ds =>
      rw [hl] at hh
      simp only [List.head?_cons, Option.some.injEq] at hh
      rw [hh]
      exact head_lstrip hl
  rw [h1, rstrip_idem]

theorem mem_pyStrip {c : Char} {l : List Char} (h : c ∈ pyStrip l) : c ∈ l :=
  mem_lstrip (mem_rstrip h)

theorem pyStrip_noWs {l : List Char} (h : ∀ c ∈ l, pws c = false) :
    pyStrip l = l := by
  rw [pyStrip, lstrip_eq_self_of_head (fun c r hcr => h c (by simp [hcr]))]
  exact rstrip_eq_self_of_last (fun c hc => h c (mem_of_getLast?_eq hc))

theorem pyStrip_fixed_split {l : List Char} (h : pyStrip l = l) :
    lstrip l = l ∧ rstrip l = l := by
  have hlen1 : (rstrip (lstrip l)).length ≤ (lstrip l).length := rstrip_length _
  have hlen2 : (lstrip l).length ≤ l.length := lstrip_length _
  have hlen3 : (rstrip (lstrip l)).length = l.length := by
    rw [pyStrip] at h
    rw [h]
  have hfix : lstrip l = l := lstrip_eq_of_length (by omega)
  refine ⟨hfix, ?_⟩
  rw [pyStrip, hfix] at h
  exact h

/-! ## Lemmas: stripped lines survive the overall strip -/

theorem lstrip_fixed_head {d : Char} {x : List Char}
    (h : lstrip (d :: x) = d :: x) : pws d = false := by
  by_cases hd : pws d = true
  · rw [lstrip_cons_pos hd] at h
    have h1 := lstrip_length x
    have h2 : (lstrip x).length = (d :: x).length := by rw [h]
    simp at h2
    omega
  · simpa using hd

theorem first_line_head_cases {x m₀ : List Char} {ms : List (List Char)}
    (h : splitOnNl x = m₀ :: ms) :
    m₀ = [] ∨ ∃ d t, m₀ = d :: t ∧ x.head? = some d ∧ d ≠ '\n' := by
  cases x with
  | nil =>
    simp [splitOnNl] at h
    exact Or.inl h.1
  | cons d r =>
    by_cases hd : d = '\n'
    · subst hd
      rw [splitOnNl_cons_nl] at h
      injection h with h1 _
      exact Or.inl h1.symm
    · cases hsr : splitOnNl r with
      | nil => exact absurd hsr (splitOnNl_ne_nil r)
      | cons n₀ ns =>
        rw [splitOnNl_cons_eq hd hsr] at h
        injection h with h1 _
        exact Or.inr ⟨d, n₀, h1.symm, rfl, hd⟩

theorem splitOnNl_first_nil {x : Char} {xs : List Char}
    {ms : List (List Char)} (h : splitOnNl (x :: xs) = [] :: ms) :
    x = '\n' := by
  by_cases hx : x = '\n'
  · exact hx
  · cases hsr : splitOnNl xs with
    | nil => exact absurd hsr (splitOnNl_ne_nil xs)
    | cons n₀ ns =>
      rw [splitOnNl_cons_eq hx hsr] at h
      injection h with h1 _
      simp at h1

theorem head_not_pws_of_lstripped {x : List Char} {d : Char}
    (hL : ∀ l ∈ splitOnNl x, lstrip l = l) (hd : x.head? = some d)
    (hdn : d ≠ '\n') : pws d = false := by
  cases x with
  | nil => simp at hd
  | cons e r =>
    simp only [List.head?_cons, Option.some.injEq] at hd
    subst hd
    cases hsr : splitOnNl r with
    | nil => exact absurd hsr (splitOnNl_ne_nil r)
    | cons n₀ ns =>
      exact lstrip_fixed_head
        (hL _ ((splitOnNl_cons_eq hdn hsr) ▸ List.mem_cons_self _ _))

theorem linesStripped_lstrip {t : List Char}
    (h : ∀ l ∈ splitOnNl t, pyStrip l = l) :
    ∀ l ∈ splitOnNl (lstrip t), pyStrip l = l := by
  induction t with
  | nil => simpa [lstrip] using h
  | cons c rest ih =>
    by_cases hp : pws c = true
    · by_cases hc : c = '\n'
      · subst hc
        rw [lstrip_cons_pos hp]
        apply ih
        intro l hl
        exact h l (by rw [splitOnNl_cons_nl]; exact List.mem_cons_of_mem _ hl)
      · exfalso
        cases hsp : splitOnNl rest with
        | nil => exact splitOnNl_ne_nil rest hsp
        | cons l₀ ls =>
          have hline := h (c :: l₀)
            ((splitOnNl_cons_eq hc hsp) ▸ List.mem_cons_self _ _)
          have hfix := (pyStrip_fixed_split hline).1
          exact absurd (lstrip_fixed_head hfix) (by simp [hp])
    · rw [lstrip_cons_neg (by simpa using hp)]
      exact h

theorem linesStripped_rstrip : ∀ {t : List Char},
    (∀ l ∈ splitOnNl t, rstrip l = l) →
    (∀ l ∈ (splitOnNl t).tail, lstrip l = l) →
    (∀ l ∈ splitOnNl (rstrip t), rstrip l = l) ∧
    (∀ l ∈ (splitOnNl (rstrip t)).tail, lstrip l = l) := by
  intro t
  induction t with
  | nil => intro hR hL; exact ⟨by simpa using hR, by simpa using hL⟩
  | cons c rest ih =>
    intro hR hL
    rcases hr : rstrip rest with _ | ⟨r0, rr⟩
    · rw [rstrip_cons_of_nil hr]
      by_cases hc : pws c = true
      · rw [if_pos hc]
        refine ⟨?_, ?_⟩
        · intro l hl
          simp only [splitOnNl] at hl
          rcases List.mem_cons.mp hl with rfl | hl
          · rfl
          · simp at hl
        · intro l hl
          simp [splitOnNl] at hl
      · rw [if_neg hc]
        have hc' : c ≠ '\n' := fun he => by
          rw [he] at hc
          exact hc (by decide)
        have hone : splitOnNl [c] = [[c]] :=
          splitOnNl_noNl (fun hm => hc' (List.mem_singleton.mp hm).symm)
        refine ⟨?_, ?_⟩
        · intro l hl
          rw [hone] at hl
          rcases List.mem_cons.mp hl with rfl | hl
          · rw [rstrip_cons_of_nil (show rstrip [] = [] from rfl),
              if_neg (by simp [hc])]
          · simp at hl
        · intro l hl
          rw [hone] at hl
          simp at hl
    · have hstep : rstrip (c :: rest) = c :: rstrip rest := by
        rw [rstrip_cons_of_cons hr, hr]
      have hrne : rstrip rest ≠ [] := by simp [hr]
      by_cases hc : c = '\n'
      · subst hc
        have hLfull : ∀ l ∈ splitOnNl rest, lstrip l = l := by
          intro l hl
          apply hL
          rw [splitOnNl_cons_nl]
          exact hl
        have hRrest : ∀ l ∈ splitOnNl rest, rstrip l = l := by
          intro l hl
          exact hR l (by rw [splitOnNl_cons_nl]; exact List.mem_cons_of_mem _ hl)
        have hLrest : ∀ l ∈ (splitOnNl rest).tail, lstrip l = l := by
          intro l hl
          cases hsp : splitOnNl rest with
          | nil => exact absurd hsp (splitOnNl_ne_nil rest)
          | cons n₀ ns =>
            rw [hsp] at hl
            exact hLfull l (hsp ▸ List.mem_cons_of_mem _ hl)
        obtain ⟨ihR, ihL⟩ := ih hRrest hLrest
        rw [hstep]
        refine ⟨?_, ?_⟩
        · intro l hl
          rw [splitOnNl_cons_nl] at hl
          rcases List.mem_cons.mp hl with rfl | hl
          · rfl
          · exact ihR l hl
        · intro l hl
          rw [splitOnNl_cons_nl] at hl
          simp only [List.tail_cons] at hl
          cases hsp' : splitOnNl (rstrip rest) with
          | nil => exact absurd hsp' (splitOnNl_ne_nil _)
          | cons m₀ ms =>
            rw [hsp'] at hl
            rcases List.mem_cons.mp hl with rfl | hl
            · rcases first_line_head_cases hsp' with rfl | ⟨d, u, rfl, hdh, hdn⟩
              · rfl
              · rw [head_rstrip hrne] at hdh
                exact lstrip_cons_neg
                  (head_not_pws_of_lstripped hLfull hdh hdn) u
            · exact ihL l (by rw [hsp']; exact hl)
      · cases hsprest : splitOnNl rest with
        | nil => exact absurd hsprest (splitOnNl_ne_nil rest)
        | cons l₀ ls =>
          have hlt : splitOnNl (c :: rest) = (c :: l₀) :: ls :=
            splitOnNl_cons_eq hc hsprest
          have hR0 : rstrip (c :: l₀) = c :: l₀ :=
            hR _ (hlt ▸ List.mem_cons_self _ _)
          have hRrest : ∀ l ∈ splitOnNl rest, rstrip l = l := by
            intro l hl
            rw [hsprest] at hl
            rcases List.mem_cons.mp hl with rfl | hl
            · exact rstrip_cons_fixed hR0
            · exact hR l (hlt ▸ List.mem_cons_of_mem _ hl)
          have hLrest : ∀ l ∈ (splitOnNl rest).tail, lstrip l = l := by
            intro l hl
            rw [hsprest] at hl
            apply hL
            rw [hlt]
            exact hl
          obtain ⟨ihR, ihL⟩ := ih hRrest hLrest
          rw [hstep]
          cases hsp' : splitOnNl (rstrip rest) with
          | nil => exact absurd hsp' (splitOnNl_ne_nil _)
          | cons m₀ ms =>
            have hlines : splitOnNl (c :: rstrip rest) = (c :: m₀) :: ms :=
              splitOnNl_cons_eq hc hsp'
            rw [hlines]
            refine ⟨?_, ?_⟩
            · intro l hl
              rcases List.mem_cons.mp hl with rfl | hl
              · cases hm : m₀ with
                | nil =>
                  have hr0nl : r0 = '\n' := by
                    rw [hr, hm] at hsp'
                    exact splitOnNl_first_nil hsp'
                  have hresthead : rest.head? = some '\n' := by
                    rw [← head_rstrip hrne, hr, hr0nl]
                    rfl
                  have hl0 : l₀ = [] := by
                    cases rest with
                    | nil => simp at hresthead
                    | cons e r' =>
                      simp only [List.head?_cons, Option.some.injEq] at hresthead
                      subst hresthead
                      rw [splitOnNl_cons_nl] at hsprest
                      injection hsprest with h1 _
                      exact h1.symm
                  rw [hl0] at hR0
                  exact hR0
                | cons d u =>
                  have hmfix : rstrip m₀ = m₀ :=
                    ihR m₀ (hsp' ▸ List.mem_cons_self _ _)
                  rw [hm] at hmfix
                  exact rstrip_cons_of_cons hmfix
              · exact ihR l (hsp' ▸ List.mem_cons_of_mem _ hl)
            · intro l hl
              simp only [List.tail_cons] at hl
              exact ihL l (by rw [hsp']; exact hl)

/-! ## Lemmas: the cleaning-pass invariants -/

theorem mem_joinNl {c : Char} : ∀ {L : List (List Char)}, c ∈ joinNl L →
    (∃ l ∈ L, c ∈ l) ∨ c = '\n' := by
  intro L
  induction L with
  | nil => intro h; simp [joinNl] at h
  | cons l L' ih =>
    intro h
    cases L' with
    | nil => exact Or.inl ⟨l, List.mem_cons_self _ _, h⟩
    | cons x xs =>
      rw [joinNl_cons_ne (by simp)] at h
      rcases List.mem_append.mp h with h | h
      · exact Or.inl ⟨l, List.mem_cons_self _ _, h⟩
      · rcases List.mem_cons.mp h with rfl | h
        · exact Or.inr rfl
        · rcases ih h with ⟨m, hm, hc⟩ | h
          · exact Or.inl ⟨m, List.mem_cons_of_mem _ hm, hc⟩
          · exact Or.inr h

theorem mem_stripLines {c : Char} {t : List Char} (h : c ∈ stripLines t) :
    c ∈ t ∨ c = '\n' := by
  rw [stripLines] at h
  rcases mem_joinNl h with ⟨l, hl, hc⟩ | h
  · rw [List.mem_map] at hl
    obtain ⟨l₀, hl₀, rfl⟩ := hl
    exact Or.inl (mem_of_mem_splitOnNl hl₀ (mem_pyStrip hc))
  · exact Or.inr h

theorem noDS_lstrip {l : List Char} (h : hasDoubleSpace l = false) :
    hasDoubleSpace (lstrip l) = false := by
  induction l with
  | nil => exact h
  | cons a rest ih =>
    by_cases ha : pws a = true
    · rw [lstrip_cons_pos ha]
      exact ih (hasDoubleSpace_tail h)
    · rw [lstrip_cons_neg (by simpa using ha)]
      exact h

theorem noDS_rstrip {l : List Char} (h : hasDoubleSpace l = false) :
    hasDoubleSpace (rstrip l) = false := by
  induction l with
  | nil => exact h
  | cons a rest ih =>
    rcases hr : rstrip rest with _ | ⟨x, xs⟩
    · rw [rstrip_cons_of_nil hr]
      split
      · rfl
      · rfl
    · rw [rstrip_cons_of_cons hr]
      rw [hasDoubleSpace_cons_iff]
      have hrest := ih (hasDoubleSpace_tail h)
      rw [hr] at hrest
      refine ⟨hrest, ?_⟩
      rintro ⟨rfl, hh⟩
      have hne : rstrip rest ≠ [] := by simp [hr]
      have hhx : (rstrip rest).head? = rest.head? := head_rstrip hne
      rw [hr] at hhx
      simp only [List.head?_cons] at hhx hh
      exact (hasDoubleSpace_cons_iff.mp h).2 ⟨rfl, by rw [← hhx]; exact hh⟩

theorem noDS_pyStrip {l : List Char} (h : hasDoubleSpace l = false) :
    hasDoubleSpace (pyStrip l) = false :=
  noDS_rstrip (noDS_lstrip h)

theorem noDS_stripLines {t : List Char} (h : hasDoubleSpace t = false) :
    hasDoubleSpace (stripLines t) = false := by
  rw [stripLines]
  apply noDS_joinNl
  intro l hl
  rw [List.mem_map] at hl
  obtain ⟨l₀, hl₀, rfl⟩ := hl
  exact noDS_pyStrip (noDS_of_mem_splitOnNl h hl₀)

theorem map_self_of_fixed {α : Type} {f : α → α} :
    ∀ {l : List α}, (∀ a ∈ l, f a = a) → l.map f = l := by
  intro l
  induction l with
  | nil => intro _; rfl
  | cons a l ih =>
    intro h
    rw [List.map_cons, h a (List.mem_cons_self _ _),
      ih (fun b hb => h b (List.mem_cons_of_mem _ hb))]

theorem stripLines_eq_self {t : List Char}
    (h : ∀ l ∈ splitOnNl t, pyStrip l = l) : stripLines t = t := by
  rw [stripLines, map_self_of_fixed h, joinNl_splitOnNl]

theorem splitOnNl_stripLines (t : List Char) :
    splitOnNl (stripLines t) = (splitOnNl t).map pyStrip := by
  rw [stripLines]
  apply splitOnNl_joinNl
  · simpa using splitOnNl_ne_nil t
  · intro l hl
    rw [List.mem_map] at hl
    obtain ⟨l₀, hl₀, rfl⟩ := hl
    intro hmem
    exact noNl_of_mem_splitOnNl hl₀ (mem_pyStrip hmem)

theorem linesStripped_stripLines (t : List Char) :
    ∀ l ∈ splitOnNl (stripLines t), pyStrip l = l := by
  rw [splitOnNl_stripLines]
  intro l hl
  rw [List.mem_map] at hl
  obtain ⟨l₀, _, rfl⟩ := hl
  exact pyStrip_idem l₀

theorem linesStripped_pyStrip {t : List Char}
    (h : ∀ l ∈ splitOnNl t, pyStrip l = l) :
    ∀ l ∈ splitOnNl (pyStrip t), pyStrip l = l := by
  rw [pyStrip]
  have hy : ∀ l ∈ splitOnNl (lstrip t), pyStrip l = l := linesStripped_lstrip h
  have hyR : ∀ l ∈ splitOnNl (lstrip t), rstrip l = l :=
    fun l hl => (pyStrip_fixed_split (hy l hl)).2
  have hyLt : ∀ l ∈ (splitOnNl (lstrip t)).tail, lstrip l = l := by
    intro l hl
    cases hsp : splitOnNl (lstrip t) with
    | nil => exact absurd hsp (splitOnNl_ne_nil _)
    | cons n₀ ns =>
      rw [hsp] at hl
      exact (pyStrip_fixed_split (hy l (hsp ▸ List.mem_cons_of_mem _ hl))).1
  obtain ⟨hcR, hcL⟩ := linesStripped_rstrip hyR hyLt
  intro l hl
  have hRl : rstrip l = l := hcR l hl
  have hLl : lstrip l = l := by
    cases hsp : splitOnNl (rstrip (lstrip t)) with
    | nil => exact absurd hsp (splitOnNl_ne_nil _)
    | cons m₀ ms =>
      rw [hsp] at hl
      rcases List.mem_cons.mp hl with rfl | hl'
      · rcases first_line_head_cases hsp with rfl | ⟨d, u, rfl, hdh, hdn⟩
        · rfl
        · have hne : rstrip (lstrip t) ≠ [] := by
            intro hnil
            rw [hnil] at hsp
            simp [splitOnNl] at hsp
          have hhy : (lstrip t).head? = some d := by
            rw [← head_rstrip hne]
            exact hdh
          cases hy0 : lstrip t with
          | nil =>
            rw [hy0] at hhy
            simp at hhy
          | cons e r =>
            rw [hy0] at hhy
            simp only [List.head?_cons, Option.some.injEq] at hhy
            subst hhy
            exact lstrip_cons_neg (head_lstrip hy0) u
      · exact hcL l (by rw [hsp]; exact hl')
  rw [pyStrip, hLl, hRl]

theorem noCR_cleanText (s : List Char) : '\r' ∉ cleanText s := by
  rw [cleanText]
  split
  · simp
  · intro hmem
    have h1 := mem_pyStrip hmem
    rcases mem_stripLines h1 with h2 | h2
    · rcases mem_collapseNlAux h2 with h3 | h3
      · rcases mem_collapseSpaces h3 with h4 | h4
        · exact noCR_replaceCR _ h4
        · exact absurd h4 (by decide)
      · exact absurd h3 (by decide)
    · exact absurd h2 (by decide)

theorem noTab_cleanText (s : List Char) : '\t' ∉ cleanText s := by
  rw [cleanText]
  split
  · simp
  · intro hmem
    have h1 := mem_pyStrip hmem
    rcases mem_stripLines h1 with h2 | h2
    · rcases mem_collapseNlAux h2 with h3 | h3
      · exact noTab_collapseSpaces _ h3
      · exact absurd h3 (by decide)
    · exact absurd h2 (by decide)

theorem noDS_cleanText (s : List Char) :
    hasDoubleSpace (cleanText s) = false := by
  rw [cleanText]
  split
  · rfl
  · exact noDS_pyStrip (noDS_stripLines (noDS_collapseNlAux 0
      (noDS_collapseSpaces _)))

theorem linesStripped_cleanText (s : List Char) :
    ∀ l ∈ splitOnNl (cleanText s), pyStrip l = l := by
  rw [cleanText]
  split
  · intro l hl
    simp [splitOnNl] at hl
    rw [hl]
    rfl
  · exact linesStripped_pyStrip (linesStripped_stripLines _)

theorem pyStrip_cleanText (s : List Char) :
    pyStrip (cleanText s) = cleanText s := by
  rw [cleanText]
  split
  · rfl
  · exact pyStrip_idem _

theorem collapseNewlines_eq_self {t : List Char}
    (h : hasTripleNl t = false) : collapseNewlines t = t := by
  have := @collapseNlAux_eq_self 0 t (by omega) (by simpa using h)
  simpa using this

theorem cleanText_fixed {t : List Char} (h1 : '\r' ∉ t) (h2 : '\t' ∉ t)
    (h3 : hasDoubleSpace t = false) (h4 : hasTripleNl t = false)
    (h5 : ∀ l ∈ splitOnNl t, pyStrip l = l) (h6 : pyStrip t = t) :
    cleanText t = t := by
  by_cases hs : t = []
  · rw [hs]
    rfl
  · rw [cleanText, if_neg hs, replaceCRLF_eq_self h1, replaceCR_eq_self h1,
      collapseSpaces_eq_self h2 h3, collapseNewlines_eq_self h4,
      stripLines_eq_self h5, h6]

/-! ## Lemmas: blank-line runs through the full cleaning pass -/

theorem cleanText_blank_runs {a b : List Char} (ha : a ≠ []) (hb : b ≠ [])
    (hA : ∀ c ∈ a, pws c = false) (hB : ∀ c ∈ b, pws c = false) (k : Nat) :
    cleanText (a ++ List.replicate k '\n' ++ b)
      = a ++ List.replicate (min k 2) '\n' ++ b := by
  have hna : '\n' ∉ a := fun hm => by
    have := hA _ hm
    simp [pws] at this
  have hnb : '\n' ∉ b := fun hm => by
    have := hB _ hm
    simp [pws] at this
  have hs : a ++ List.replicate k '\n' ++ b ≠ [] := by
    cases a with
    | nil => exact absurd rfl ha
    | cons x xs => simp
  have hmemw : ∀ c, c ∈ a ++ List.replicate k '\n' ++ b →
      c ∈ a ∨ c = '\n' ∨ c ∈ b := by
    intro c hc
    rcases List.mem_append.mp hc with hc | hc
    · rcases List.mem_append.mp hc with hc | hc
      · exact Or.inl hc
      · exact Or.inr (Or.inl (List.mem_replicate.mp hc).2)
    · exact Or.inr (Or.inr hc)
  have hnr : '\r' ∉ a ++ List.replicate k '\n' ++ b := by
    intro hm
    rcases hmemw _ hm with h | h | h
    · have := hA _ h
      simp [pws] at this
    · exact absurd h (by decide)
    · have := hB _ h
      simp [pws] at this
  have hnt : '\t' ∉ a ++ List.replicate k '\n' ++ b := by
    intro hm
    rcases hmemw _ hm with h | h | h
    · have := hA _ h
      simp [pws] at this
    · exact absurd h (by decide)
    · have := hB _ h
      simp [pws] at this
  have hnsp : ' ' ∉ a ++ List.replicate k '\n' ++ b := by
    intro hm
    rcases hmemw _ hm with h | h | h
    · have := hA _ h
      simp [pws] at this
    · exact absurd h (by decide)
    · have := hB _ h
      simp [pws] at this
  rw [cleanText, if_neg hs, replaceCRLF_eq_self hnr, replaceCR_eq_self hnr,
    collapseSpaces_eq_self hnt (hasDoubleSpace_of_noSpace hnsp),
    collapseNewlines_run hna hnb]
  have hlines : ∀ l ∈ splitOnNl (a ++ List.replicate (min k 2) '\n' ++ b),
      pyStrip l = l := by
    have hm : min k 2 = 0 ∨ min k 2 = 1 ∨ min k 2 = 2 := by omega
    have hfa : pyStrip a = a := pyStrip_noWs hA
    have hfb : pyStrip b = b := pyStrip_noWs hB
    rcases hm with hm | hm | hm <;> rw [hm]
    · simp only [List.replicate_zero, List.append_nil]
      rw [splitOnNl_noNl (by
        intro hmem
        rcases List.mem_append.mp hmem with h | h
        · exact hna h
        · exact hnb h)]
      intro l hl
      rcases List.mem_cons.mp hl with rfl | hl
      · exact pyStrip_noWs (fun c hc => by
          rcases List.mem_append.mp hc with h | h
          · exact hA c h
          · exact hB c h)
      · simp at hl
    · have : List.replicate 1 '\n' = ['\n'] := rfl
      rw [this, List.append_assoc]
      rw [show (['\n'] ++ b : List Char) = '\n' :: b from rfl,
        splitOnNl_append_nl hna, splitOnNl_noNl hnb]
      intro l hl
      rcases List.mem_cons.mp hl with rfl | hl
      · exact hfa
      · rcases List.mem_cons.mp hl with rfl | hl
        · exact hfb
        · simp at hl
    · have : List.replicate 2 '\n' = ['\n', '\n'] := rfl
      rw [this, List.append_assoc]
      rw [show ((['\n', '\n'] : List Char) ++ b) = '\n' :: ('\n' :: b) from rfl,
        splitOnNl_append_nl hna, splitOnNl_cons_nl, splitOnNl_noNl hnb]
      intro l hl
      rcases List.mem_cons.mp hl with rfl | hl
      · exact hfa
      · rcases List.mem_cons.mp hl with rfl | hl
        · rfl
        · rcases List.mem_cons.mp hl with rfl | hl
          · exact hfb
          · simp at hl
  rw [stripLines_eq_self hlines, pyStrip,
    lstrip_eq_self_of_head (by
      intro c r hcr
      cases a with
      | nil => exact absurd rfl ha
      | cons a0 a' =>
        rw [List.cons_append, List.cons_append] at hcr
        injection hcr with h1 _
        rw [← h1]
        exact hA a0 (List.mem_cons_self _ _)),
    rstrip_eq_self_of_last (by
      intro c hc
      rw [List.getLast?_append_of_ne_nil _ hb] at hc
      exact hB c (mem_of_getLast?_eq hc))]

/-! ## Lemmas: version assignment -/

theorem maxVersionFor_none {tbl : List (String × Nat)} {d : String}
    (h : ∀ p ∈ tbl, p.1 ≠ d) : maxVersionFor tbl d = none := by
  induction tbl with
  | nil => rfl
  | cons p rest ih =>
    rw [maxVersionFor]
    simp only [if_neg (h p (List.mem_cons_self _ _))]
    exact ih (fun q hq => h q (List.mem_cons_of_mem _ hq))

theorem nextVersion_cons (tbl : List (String × Nat)) (d : String) :
    nextVersion ((d, nextVersion tbl d) :: tbl) d = nextVersion tbl d + 1 := by
  cases hm : maxVersionFor tbl d with
  | none =>
    simp [nextVersion, maxVersionFor, hm]
  | some m =>
    simp [nextVersion, maxVersionFor, hm]

theorem runSequential_versions (d : String) : ∀ (n : Nat)
    (tbl : List (String × Nat)),
    (runSequentialAnalyses tbl d n).1 = List.range' (nextVersion tbl d) n := by
  intro n
  induction n with
  | zero => intro tbl; rfl
  | succ n ih =>
    intro tbl
    simp only [runSequentialAnalyses, persistAnalysis]
    rw [ih ((d, nextVersion tbl d) :: tbl), nextVersion_cons]
    exact (List.range'_succ _ n 1).symm

/-! ## Lemmas: retry behaviour -/

theorem waitExpDelay_bounds (n : Nat) :
    4 ≤ waitExpDelay n ∧ waitExpDelay n ≤ 10 := by
  refine ⟨Nat.le_max_left _ _, ?_⟩
  exact Nat.max_le.mpr ⟨by norm_num, Nat.min_le_right _ _⟩

theorem genAttempt_empty :
    genAttempt (.ok []) = .error .emptyResponse := rfl

theorem generateText_attempts_le
    (service : List Char → Nat → Except Unit (List Char))
    (prompt : List Char) : (generateText service prompt).2.1 ≤ 3 := by
  rw [generateText, retryLoop]
  cases h1 : genAttempt (service prompt 1) with
  | ok t => simp
  | error e =>
    simp only [if_neg (by omega : ¬(2 : Nat) = 0)]
    rw [retryLoop]
    cases h2 : genAttempt (service prompt 2) with
    | ok t => simp
    | error e2 =>
      simp only [if_neg (by omega : ¬(1 : Nat) = 0)]
      rw [retryLoop]
      cases h3 : genAttempt (service prompt 3) with
      | ok t => simp
      | error e3 => simp

theorem generateText_delays_bounded
    (service : List Char → Nat → Except Unit (List Char))
    (prompt : List Char) :
    ∀ dlt ∈ (generateText service prompt).2.2, 4 ≤ dlt ∧ dlt ≤ 10 := by
  rw [generateText, retryLoop]
  cases h1 : genAttempt (service prompt 1) with
  | ok t => simp
  | error e =>
    simp only [if_neg (by omega : ¬(2 : Nat) = 0)]
    rw [retryLoop]
    cases h2 : genAttempt (service prompt 2) with
    | ok t =>
      intro dlt hd
      simp at hd
      rw [hd]
      exact waitExpDelay_bounds 1
    | error e2 =>
      simp only [if_neg (by omega : ¬(1 : Nat) = 0)]
      rw [retryLoop]
      cases h3 : genAttempt (service prompt 3) with
      | ok t =>
        intro dlt hd
        simp at hd
        rcases hd with rfl | rfl
        · exact waitExpDelay_bounds 1
        · exact waitExpDelay_bounds 2
      | error e3 =>
        intro dlt hd
        simp at hd
        rcases hd with rfl | rfl
        · exact waitExpDelay_bounds 1
        · exact waitExpDelay_bounds 2

theorem generateText_third_attempt
    (service : List Char → Nat → Except Unit (List Char))
    (prompt : List Char) {t : List Char}
    (h1 : ∃ e, genAttempt (service prompt 1) = .error e)
    (h2 : ∃ e, genAttempt (service prompt 2) = .error e)
    (h3 : service prompt 3 = .ok t) (ht : t ≠ []) :
    generateText service prompt
      = (.ok (pyStrip t), 3, [waitExpDelay 1, waitExpDelay 2]) := by
  obtain ⟨e1, he1⟩ := h1
  obtain ⟨e2, he2⟩ := h2
  rw [generateText, retryLoop, he1]
  simp only [if_neg (by omega : ¬(2 : Nat) = 0)]
  rw [retryLoop, he2]
  simp only [if_neg (by omega : ¬(1 : Nat) = 0)]
  rw [retryLoop]
  have h3' : genAttempt (service prompt 3) = .ok (pyStrip t) := by
    rw [h3, genAttempt]
    simp [ht]
  rw [h3']

theorem generateText_retries_after_failure
    (service : List Char → Nat → Except Unit (List Char))
    (prompt : List Char) (h : ∃ e, genAttempt (service prompt 1) = .error e) :
    2 ≤ (generateText service prompt).2.1 := by
  obtain ⟨e1, he1⟩ := h
  rw [generateText, retryLoop, he1]
  simp only [if_neg (by omega : ¬(2 : Nat) = 0)]
  rw [retryLoop]
  cases h2 : genAttempt (service prompt 2) with
  | ok t => simp
  | error e2 =>
    simp only [if_neg (by omega : ¬(1 : Nat) = 0)]
    rw [retryLoop]
    cases h3 : genAttempt (service prompt 3) with
    | ok t => simp
    | error e3 => simp

/-! ## Lemmas: signature detection -/

theorem startsWithBytes_shape4 {a b c d : Nat} {l : List Nat}
    (h : startsWithBytes [a, b, c, d] l = true) :
    ∃ r, l = a :: b :: c :: d :: r := by
  match l with
  | x1 :: x2 :: x3 :: x4 :: r =>
    simp only [startsWithBytes, Bool.and_eq_true, decide_eq_true_eq] at h
    obtain ⟨h1, h2, h3, h4⟩ := h
    exact ⟨r, by rw [h1, h2, h3, h4.1]⟩
  | [] => simp [startsWithBytes] at h
  | [x1] => simp [startsWithBytes] at h
  | [x1, x2] => simp [startsWithBytes] at h
  | [x1, x2, x3] => simp [startsWithBytes] at h

theorem detectBySignature_pdf (printable : Char → Bool) {content : List Nat}
    (h : startsWithBytes pdfSignature content = true) :
    detectBySignature printable content = some "application/pdf" := by
  obtain ⟨r, rfl⟩ := startsWithBytes_shape4 h
  rw [detectBySignature, if_neg (by simp), if_pos h]

theorem detectMimeType_pdf (printable : Char → Bool)
    (guessType : String → Option String) {content : List Nat}
    (filename : Option String) (h : startsWithBytes pdfSignature content = true) :
    detectMimeType printable guessType content filename = "application/pdf" := by
  rw [detectMimeType.eq_def, detectBySignature_pdf printable h]

theorem detectBySignature_zip (printable : Char → Bool) {content : List Nat}
    (h : startsWithBytes zipSignature content = true)
    (hm : hasSubSeq wordprocessingMarker (utf8Ignore (content.take 1024)) = false) :
    detectBySignature printable content = some "application/zip" := by
  obtain ⟨r, rfl⟩ := startsWithBytes_shape4 h
  rw [detectBySignature, if_neg (by simp),
    if_neg (by simp [startsWithBytes, pdfSignature]), if_pos h,
    if_neg (by simp only [hm]; simp)]

theorem extractText_pk_no_marker (printable : Char → Bool)
    (guessType : String → Option String)
    (pdfX docxX : List Nat → Except String (List Char))
    (txtX : List Nat → Except String (List Char × String))
    {content : List Nat} (filename : Option String)
    (h : startsWithBytes zipSignature content = true)
    (hm : hasSubSeq wordprocessingMarker (utf8Ignore (content.take 1024)) = false)
    (hsz : content.length ≤ MAX_FILE_SIZE) :
    extractText printable guessType pdfX docxX txtX content filename
      = .error (.unsupportedFormat "application/zip") := by
  have hmime : detectMimeType printable guessType content filename
      = "application/zip" := by
    rw [detectMimeType.eq_def, detectBySignature_zip printable h hm]
  have hne : content ≠ [] := by
    obtain ⟨r, rfl⟩ := startsWithBytes_shape4 h
    simp
  simp only [extractText, if_neg (by omega : ¬ MAX_FILE_SIZE < content.length),
    if_neg hne, hmime]
  rfl

theorem extractText_too_large (printable : Char → Bool)
    (guessType : String → Option String)
    (pdfX docxX : List Nat → Except String (List Char))
    (txtX : List Nat → Except String (List Char × String))
    {content : List Nat} (filename : Option String)
    (h : MAX_FILE_SIZE < content.length) :
    extractText printable guessType pdfX docxX txtX content filename
      = .error .inputTooLarge := by
  rw [extractText, if_pos h]

/-! ## Claims -/

/-- Claim C1: for a document with no prior analyses, `N` sequential
successful analysis requests persist `Analysis` rows with versions exactly
`1..N` (``List.range' 1 N``) with no repeats; each step reads the current
maximum stored version for the document and assigns max+1 (the definition
of `nextVersion`/`persistAnalysis`). -/
theorem claim_C1_monotonic_versioning (tbl : List (String × Nat)) (d : String)
    (N : Nat) (hfresh : ∀ p ∈ tbl, p.1 ≠ d) :
    (runSequentialAnalyses tbl d N).1 = List.range' 1 N ∧
    (runSequentialAnalyses tbl d N).1.Nodup := by
  have h1 : nextVersion tbl d = 1 := by
    rw [nextVersion, maxVersionFor_none hfresh]
  constructor
  · rw [runSequential_versions, h1]
  · rw [runSequential_versions, h1]
    exact List.nodup_range' _ _

/-- Witness for C1: three sequential analyses of a fresh document, with an
unrelated document already present, are assigned versions `[1, 2, 3]`. -/
theorem claim_C1_witness :
    (runSequentialAnalyses [("other", 5)] "doc" 3).1 = List.range' 1 3 ∧
    (runSequentialAnalyses [("other", 5)] "doc" 3).1.Nodup :=
  claim_C1_monotonic_versioning [("other", 5)] "doc" 3 (by decide)

/-- Counterexample to claim C2 as stated: cleaning is not idempotent for
every input. A line holding only a space survives the newline-run collapse
(which runs before line trimming) and becomes empty only afterwards, so
the first pass emits three consecutive newlines that a second pass then
collapses. -/
theorem claim_C2_counterexample :
    cleanText (cleanText "a\n \n \nb".data) ≠ cleanText "a\n \n \nb".data := by
  decide

/-- Claim C2 (amended): the cleaning pass is idempotent on every input
whose once-cleaned text has no run of three or more consecutive newlines —
equivalently, whenever no nonempty whitespace-only line feeds a blank-line
run. The unrestricted claim is false (`claim_C2_counterexample`). -/
theorem claim_C2_idempotent (s : List Char)
    (h : hasTripleNl (cleanText s) = false) :
    cleanText (cleanText s) = cleanText s :=
  cleanText_fixed (noCR_cleanText s) (noTab_cleanText s) (noDS_cleanText s) h
    (linesStripped_cleanText s) (pyStrip_cleanText s)

/-- Witness for C2 (amended), on an input whose blank lines are truly
empty: cleaning it twice equals cleaning it once. -/
theorem claim_C2_witness :
    hasTripleNl (cleanText "  a   b \n\n\n\n c ".data) = false ∧
    cleanText (cleanText "  a   b \n\n\n\n c ".data)
      = cleanText "  a   b \n\n\n\n c ".data :=
  ⟨by decide, claim_C2_idempotent _ (by decide)⟩

/-- Claim C3: for every caller and document id, a missing document and a
document owned by someone else give identical externally visible outcomes:
`get_document` returns `None` in both worlds, and `update_document` /
`delete_document` return `False` and leave the store untouched in both
worlds, so a non-owner cannot distinguish existence from non-existence. -/
theorem claim_C3_ownership_isolation (db₁ db₂ : String → Option FsDoc)
    (docId callerUid : String) (upd : FsDoc → FsDoc)
    (h₁ : db₁ docId = none)
    (h₂ : ∀ r, db₂ docId = some r → r.owner_uid ≠ some callerUid) :
    getDocument db₁ docId callerUid = none ∧
    getDocument db₂ docId callerUid = none ∧
    updateDocument db₁ docId callerUid upd = (false, db₁) ∧
    updateDocument db₂ docId callerUid upd = (false, db₂) ∧
    deleteDocument db₁ docId callerUid = (false, db₁) ∧
    deleteDocument db₂ docId callerUid = (false, db₂) := by
  refine ⟨?_, ?_, ?_, ?_, ?_, ?_⟩
  · rw [getDocument, h₁]
  · cases hdb : db₂ docId with
    | none => simp [getDocument, hdb]
    | some r => simp [getDocument, hdb, h₂ r hdb]
  · rw [updateDocument, h₁]
  · cases hdb : db₂ docId with
    | none => simp [updateDocument, hdb]
    | some r => simp [updateDocument, hdb, h₂ r hdb]
  · rw [deleteDocument, h₁]
  · cases hdb : db₂ docId with
    | none => simp [deleteDocument, hdb]
    | some r => simp [deleteDocument, hdb, h₂ r hdb]

/-- Witness for C3: caller `bob` gets the same not-found outcome whether
the document is absent or owned by `alice`. -/
theorem claim_C3_witness :
    getDocument (fun _ => none) "d1" "bob" = none ∧
    getDocument (fun i => if i = "d1" then some ⟨some "alice", none⟩ else none)
      "d1" "bob" = none ∧
    updateDocument (fun _ => none) "d1" "bob" id = (false, fun _ => none) ∧
    updateDocument (fun i => if i = "d1" then some ⟨some "alice", none⟩ else none)
      "d1" "bob" id
      = (false, fun i => if i = "d1" then some ⟨some "alice", none⟩ else none) ∧
    deleteDocument (fun _ => none) "d1" "bob" = (false, fun _ => none) ∧
    deleteDocument (fun i => if i = "d1" then some ⟨some "alice", none⟩ else none)
      "d1" "bob"
      = (false, fun i => if i = "d1" then some ⟨some "alice", none⟩ else none) :=
  claim_C3_ownership_isolation _ _ "d1" "bob" id rfl
    (by
      intro r hr
      simp at hr
      rw [← hr]
      decide)

/-- Claim C4: when the generative service returns text that does not parse
as JSON, `summarize_document` fails with the malformed-output error and the
service is not invoked again for that request — the attempt count of the
result equals the attempt count of the single retry-wrapped generation call
(and is at most 3); a parse failure is never retried, in contrast to
service-call failures, after which the wrapper always makes another
attempt. -/
theorem claim_C4_malformed_not_retried (P : Prompts)
    (service : List Char → Nat → Except Unit (List Char))
    (parse : List Char → Bool) (text : List Char)
    (tl : Option (List Char)) {rt : List Char} {n : Nat} {ds : List Nat}
    (hgen : generateText service (summaryPrompt P text tl) = (.ok rt, n, ds))
    (hparse : parse rt = false) :
    summarizeDocument P service parse text tl = (.error .malformedOutput, n) ∧
    n ≤ 3 ∧
    (∀ (service' : List Char → Nat → Except Unit (List Char)) prompt,
      (∃ e, genAttempt (service' prompt 1) = .error e) →
      2 ≤ (generateText service' prompt).2.1) := by
  refine ⟨?_, ?_, fun s' p h => generateText_retries_after_failure s' p h⟩
  · rw [summarizeDocument, hgen]
    simp [hparse]
  · have h := generateText_attempts_le service (summaryPrompt P text tl)
    rw [hgen] at h
    exact h

/-- Witness for C4: a service that answers `"nope"` on the first attempt,
with a parser rejecting it, yields MalformedOutput after exactly one
service call. -/
theorem claim_C4_witness :
    summarizeDocument ⟨[], [], [], fun _ => []⟩ (fun _ _ => .ok "nope".data)
      (fun _ => false) "text".data none = (.error .malformedOutput, 1) ∧
    (1 : Nat) ≤ 3 ∧
    (∀ (service' : List Char → Nat → Except Unit (List Char)) prompt,
      (∃ e, genAttempt (service' prompt 1) = .error e) →
      2 ≤ (generateText service' prompt).2.1) :=
  @claim_C4_malformed_not_retried ⟨[], [], [], fun _ => []⟩
    (fun _ _ => .ok "nope".data) (fun _ => false) "text".data none
    "nope".data 1 [] (by decide) rfl

/-- Counterexample to claim C5 as stated: a buffer beginning with
`PK\x03\x04` that exceeds the 10 MiB input ceiling fails with the
input-too-large error, not the unsupported-format error, so the unqualified
"for every buffer" form is false. -/
theorem claim_C5_counterexample :
    extractText (fun _ => true) (fun _ => none) (fun _ => .error "")
      (fun _ => .error "") (fun _ => .error "")
      (zipSignature ++ List.replicate MAX_FILE_SIZE 0) none
      = .error .inputTooLarge ∧
    ExtractError.inputTooLarge ≠ ExtractError.unsupportedFormat "application/zip" := by
  constructor
  · refine extractText_too_large _ _ _ _ _ none ?_
    rw [List.length_append, List.length_replicate,
      show zipSignature.length = 4 from rfl]
    omega
  · intro h
    exact absurd h (by simp)

/-- Claim C5 (amended): on the signature-detection path, a buffer starting
with `%PDF` is always classified `application/pdf`, whatever the filename
hint and whatever `mimetypes` would say; and a buffer within the input-size
ceiling starting with `PK\x03\x04` whose decoded leading 1024-byte window
lacks the `wordprocessingml` marker makes `extract_text` fail with the
unsupported-format error (for `application/zip`) — it is never treated as
plain text. The size qualification is forced by
`claim_C5_counterexample`. -/
theorem claim_C5_format_boundary :
    (∀ (printable : Char → Bool) (guessType : String → Option String)
      (content : List Nat) (filename : Option String),
      startsWithBytes pdfSignature content = true →
      detectMimeType printable guessType content filename = "application/pdf") ∧
    (∀ (printable : Char → Bool) (guessType : String → Option String)
      (pdfX docxX : List Nat → Except String (List Char))
      (txtX : List Nat → Except String (List Char × String))
      (content : List Nat) (filename : Option String),
      startsWithBytes zipSignature content = true →
      hasSubSeq wordprocessingMarker (utf8Ignore (content.take 1024)) = false →
      content.length ≤ MAX_FILE_SIZE →
      extractText printable guessType pdfX docxX txtX content filename
        = .error (.unsupportedFormat "application/zip")) :=
  ⟨fun printable guessType _ filename h =>
     detectMimeType_pdf printable guessType filename h,
   fun printable guessType pdfX docxX txtX _ filename h hm hsz =>
     extractText_pk_no_marker printable guessType pdfX docxX txtX filename
       h hm hsz⟩

/-- Witness for C5: a `%PDF` buffer named `x.txt` whose extension maps to
plain text is still detected as PDF, and a minimal `PK\x03\x04` buffer is
rejected as unsupported. -/
theorem claim_C5_witness :
    detectMimeType (fun _ => true) (fun _ => some "text/plain")
      [0x25, 0x50, 0x44, 0x46] (some "x.txt") = "application/pdf" ∧
    extractText (fun _ => true) (fun _ => some "text/plain")
      (fun _ => .error "") (fun _ => .error "") (fun _ => .error "")
      [0x50, 0x4B, 0x03, 0x04] (some "x.txt")
      = .error (.unsupportedFormat "application/zip") :=
  ⟨claim_C5_format_boundary.1 _ _ _ _ (by decide),
   claim_C5_format_boundary.2 _ _ _ _ _ _ _ (by decide) (by decide) (by decide)⟩

/-- Counterexample to claim C6 as stated: a run of exactly two consecutive
blank lines (three newlines) IS collapsed to one blank line, while the
claim asserts it is left alone. -/
theorem claim_C6_counterexample :
    cleanText "a\n\n\nb".data = "a\n\nb".data ∧
    cleanText "a\n\n\nb".data ≠ "a\n\n\nb".data := by
  constructor
  · decide
  · decide

/-- Claim C6 (amended): between two nonempty whitespace-free segments, the
cleaning pass turns a maximal run of `k` newlines into `min k 2` newlines:
every run of two or more blank lines collapses to exactly one blank line,
and runs of at most one blank line are preserved. (As stated the claim is
false: two blank lines are already collapsed, see
`claim_C6_counterexample`.) -/
theorem claim_C6_blank_line_collapse (a b : List Char) (k : Nat)
    (ha : a ≠ []) (hb : b ≠ [])
    (hA : ∀ c ∈ a, pws c = false) (hB : ∀ c ∈ b, pws c = false) :
    cleanText (a ++ List.replicate k '\n' ++ b)
      = a ++ List.replicate (min k 2) '\n' ++ b :=
  cleanText_blank_runs ha hb hA hB k

/-- Witness for C6 (amended): five newlines (four blank lines) collapse to
one blank line; two newlines (one blank line) survive unchanged. -/
theorem claim_C6_witness :
    cleanText (['a'] ++ List.replicate 5 '\n' ++ ['b'])
      = ['a'] ++ List.replicate (min 5 2) '\n' ++ ['b'] ∧
    cleanText (['a'] ++ List.replicate 2 '\n' ++ ['b'])
      = ['a'] ++ List.replicate (min 2 2) '\n' ++ ['b'] :=
  ⟨claim_C6_blank_line_collapse ['a'] ['b'] 5 (by decide) (by decide)
     (by decide) (by decide),
   claim_C6_blank_line_collapse ['a'] ['b'] 2 (by decide) (by decide)
     (by decide) (by decide)⟩

/-- Claim C7: the AI invocation wrapper makes at most 3 attempts per call;
every backoff delay it sleeps lies between the configured minimum 4 and
maximum 10 seconds; an empty response is a retry-eligible failure, never a
result; and when the service fails twice and succeeds on the third attempt
with nonempty text, the wrapper returns that text (stripped), using exactly
3 attempts, with no error visible to the caller. -/
theorem claim_C7_retry_policy :
    (∀ (service : List Char → Nat → Except Unit (List Char)) prompt,
      (generateText service prompt).2.1 ≤ 3) ∧
    (∀ (service : List Char → Nat → Except Unit (List Char)) prompt,
      ∀ dlt ∈ (generateText service prompt).2.2, 4 ≤ dlt ∧ dlt ≤ 10) ∧
    genAttempt (.ok []) = .error .emptyResponse ∧
    (∀ (service : List Char → Nat → Except Unit (List Char)) prompt
      (t : List Char),
      (∃ e, genAttempt (service prompt 1) = .error e) →
      (∃ e, genAttempt (service prompt 2) = .error e) →
      service prompt 3 = .ok t → t ≠ [] →
      generateText service prompt
        = (.ok (pyStrip t), 3, [waitExpDelay 1, waitExpDelay 2])) :=
  ⟨generateText_attempts_le, generateText_delays_bounded, genAttempt_empty,
   fun service prompt _ h1 h2 h3 ht =>
     generateText_third_attempt service prompt h1 h2 h3 ht⟩

/-- Witness for C7: a service raising on attempt 1, answering empty on
attempt 2, and answering `hi` on attempt 3 yields `hi` after exactly three
attempts and two four-second backoffs. -/
theorem claim_C7_witness :
    generateText
      (fun _ n => if n = 1 then .error () else if n = 2 then .ok [] else .ok "hi".data)
      [] = (.ok "hi".data, 3, [4, 4]) := by
  have h := claim_C7_retry_policy.2.2.2
    (fun _ n => if n = 1 then .error () else if n = 2 then .ok [] else .ok "hi".data)
    [] "hi".data ⟨.serviceFailure, by decide⟩ ⟨.emptyResponse, by decide⟩
    (by decide) (by decide)
  rw [h]
  decide

/-- Claim C8: an analysis request on an accessible document whose extracted
text is missing or empty fails with the precondition (400, no-extracted-
text) response, zero generative-service attempts are made, and no analysis
row is persisted. -/
theorem claim_C8_precondition_no_call (db : String → Option FsDoc)
    (tbl : List (String × Nat)) (callerUid docId analysisType : String)
    (tl : Option (List Char)) (P : Prompts)
    (service : List Char → Nat → Except Unit (List Char))
    (parse : List Char → Bool) (doc : FsDoc)
    (hget : getDocument db docId callerUid = some doc)
    (hempty : doc.extracted_text = none ∨ doc.extracted_text = some "") :
    documentAnalyzePost true db tbl callerUid docId analysisType tl P service
      parse = (.badRequestNoText, 0, tbl) := by
  rcases hempty with he | he <;>
    simp [documentAnalyzePost, hget, he]

/-- Witness for C8: a risks request on an owned document with no extracted
text returns the precondition failure with zero service calls. -/
theorem claim_C8_witness :
    documentAnalyzePost true
      (fun i => if i = "d" then some ⟨some "u", none⟩ else none) [] "u" "d"
      "risks" none ⟨[], [], [], fun _ => []⟩ (fun _ _ => .error ())
      (fun _ => true) = (.badRequestNoText, 0, []) :=
  claim_C8_precondition_no_call _ _ "u" "d" "risks" none _ _ _
    ⟨some "u", none⟩ (by decide) (Or.inl rfl)

/-- Claim C9: a translation request whose target-language code is not,
case-insensitively, one of {en, es, fr, de, it, pt, zh, ja} is rejected
with an error before any call to the generation service (zero attempts). -/
theorem claim_C9_unsupported_language (P : Prompts)
    (service : List Char → Nat → Except Unit (List Char))
    (parse : List Char → Bool) (content targetLanguage : List Char)
    (h : supportedLanguages.lookup (lowerAscii targetLanguage) = none) :
    translateContent P service parse content targetLanguage
      = (.error .unsupportedLanguage, 0) := by
  rw [translateContent, h]

/-- Witness for C9: the code `"xx"` is rejected before the service is
invoked. -/
theorem claim_C9_witness :
    translateContent ⟨[], [], [], fun _ => []⟩ (fun _ _ => .ok "t".data)
      (fun _ => true) "hello".data "xx".data
      = (.error .unsupportedLanguage, 0) :=
  claim_C9_unsupported_language _ _ _ _ _ (by decide)

/-- Claim C10: for every input, the cleaned text contains no carriage
return, no tab, and no two adjacent spaces; every line of the output is
fully stripped; the output as a whole is stripped; and cleaning the empty
string yields the empty string. -/
theorem claim_C10_output_invariants (s : List Char) :
    (cleanText s).contains '\r' = false ∧
    (cleanText s).contains '\t' = false ∧
    hasDoubleSpace (cleanText s) = false ∧
    ((splitOnNl (cleanText s)).all fun l => pyStrip l == l) = true ∧
    pyStrip (cleanText s) = cleanText s ∧
    cleanText ([] : List Char) = [] := by
  refine ⟨?_, ?_, noDS_cleanText s, ?_, pyStrip_cleanText s, rfl⟩
  · simpa using noCR_cleanText s
  · simpa using noTab_cleanText s
  · rw [List.all_eq_true]
    intro l hl
    simpa using linesStripped_cleanText s l hl
